import Mathlib

/-!
Shallow embedding of the bitboard-chess position engine.

The repository maintains two implementations of the same engine:
  * `src/index.mjs`   — JavaScript, bitboards as arbitrary-precision BigInt;
  * `src/src/bitboard_chess.c` — C, bitboards as `uint64_t`.

Definitions prefixed with `js` (or carrying the camelCase names of the
JavaScript source: `parseSAN`, `resolveSAN`, `makeMove`, `toFEN`,
`loadFromFEN`, `getZobristKey`) are translated from `index.mjs`;
definitions carrying the snake_case names of the C source (`parse_san`,
`resolve_san`, `make_move`, …) are translated from `bitboard_chess.c`.
Components that are literally identical in the two sources (the attack
tables, the sliding-ray casts, `pawnCaptureSources`, the board record
itself and the initial layout) are defined once and shared.

Bitboards are `Nat`.  The JavaScript engine computes with unbounded
BigInt, so `Nat` is exact for it.  The C engine computes with `uint64_t`;
every bitboard operation it performs (shift of 1 by 0..63, and, or, xor,
and-not of values below 2^64) stays below 2^64, so the same `Nat`
operations are exact for it as well; the places where the C source can
leave that range (a negative or oversized shift count, which is undefined
behaviour in C) are modelled explicitly where they matter.
-/

set_option maxRecDepth 10000

/-- Sides: `false` is white (the JS/C sources use 0 = WHITE, 1 = BLACK);
`side ^ 1` in the sources becomes boolean negation here. -/
abbrev Side := Bool

/-- Select the component of a white/black pair for a side
(sources index arrays with 0 = white, 1 = black). -/
def sel (p : Nat × Nat) (s : Side) : Nat := if s then p.2 else p.1

/-- Update the component of a white/black pair for a side. -/
def updSel (p : Nat × Nat) (s : Side) (v : Nat) : Nat × Nat :=
  if s then (p.1, v) else (v, p.2)

/-- `bit(sq)` of index.mjs / `BIT(sq)` of the C source, for an in-range
square index. -/
def bit (sq : Nat) : Nat := 1 <<< sq

/-- `bit(sq) = 1n << BigInt(sq)` of index.mjs for a possibly negative
index: a BigInt shift by a negative count is a right shift (ECMAScript
BigInt::leftShift), so the result is 0 for negative `sq`. -/
def jsBit (sq : Int) : Nat :=
  if 0 ≤ sq then 1 <<< sq.toNat else 1 >>> (-sq).toNat

/-- `a & ~b` on bitboards (`x &= ~mask` in both sources), written as
`a &&& (a ^^^ b)` — bitwise, `a AND (a XOR b) = a AND NOT b` — so that
the kernel can evaluate it. -/
def andNot (a b : Nat) : Nat := a &&& (a ^^^ b)

/-- `inBoard` of index.mjs / `in_board` of the C source. -/
def inBoard (f r : Int) : Bool :=
  decide (0 ≤ f ∧ f < 8 ∧ 0 ≤ r ∧ r < 8)

/-- Knight displacement table `kD` (identical in both sources). -/
def knightDeltas : List (Int × Int) :=
  [(1, 2), (2, 1), (2, -1), (1, -2), (-1, -2), (-2, -1), (-2, 1), (-1, 2)]

/-- King displacement table `gD` (identical in both sources). -/
def kingDeltas : List (Int × Int) :=
  [(1, 0), (1, 1), (0, 1), (-1, 1), (-1, 0), (-1, -1), (0, -1), (1, -1)]

/-- Per-square knight attack mask (`knightAttacks[sq]`, built by
`initAttackTables` in index.mjs and `init_tables` in the C source). -/
def knightAttacks (sq : Nat) : Nat :=
  let f : Int := sq % 8
  let r : Int := sq / 8
  knightDeltas.foldl
    (fun bb d =>
      let nf := f + d.1
      let nr := r + d.2
      if inBoard nf nr then bb ||| bit (nr * 8 + nf).toNat else bb) 0

/-- Per-square king attack mask (`kingAttacks[sq]`). -/
def kingAttacks (sq : Nat) : Nat :=
  let f : Int := sq % 8
  let r : Int := sq / 8
  kingDeltas.foldl
    (fun bb d =>
      let nf := f + d.1
      let nr := r + d.2
      if inBoard nf nr then bb ||| bit (nr * 8 + nf).toNat else bb) 0

/-- One sliding ray: accumulate the listed squares in order, stopping
after the first occupied one (the loop bodies `bb |= bit(s); if (occ &
bit(s)) break;` of `getRookAttacks` / `getBishopAttacks`, identical in
both sources). -/
def ray (occ : Nat) : List Nat → Nat
  | [] => 0
  | s :: rest => bit s ||| (if occ &&& bit s ≠ 0 then 0 else ray occ rest)

/-- `getRookAttacks(sq, occ)` (JS) / `get_rook_attacks` (C): four
orthogonal rays from `sq`. -/
def getRookAttacks (sq : Nat) (occ : Nat) : Nat :=
  let f := sq % 8
  let r := sq / 8
  let east := (List.range (7 - f)).map (fun i => r * 8 + (f + 1 + i))
  let west := (List.range f).map (fun i => r * 8 + (f - 1 - i))
  let north := (List.range (7 - r)).map (fun i => (r + 1 + i) * 8 + f)
  let south := (List.range r).map (fun i => (r - 1 - i) * 8 + f)
  ray occ east ||| ray occ west ||| ray occ north ||| ray occ south

/-- `getBishopAttacks(sq, occ)` (JS) / `get_bishop_attacks` (C): four
diagonal rays from `sq`. -/
def getBishopAttacks (sq : Nat) (occ : Nat) : Nat :=
  let f := sq % 8
  let r := sq / 8
  let ne := (List.range (min (7 - f) (7 - r))).map
    (fun i => (r + 1 + i) * 8 + (f + 1 + i))
  let nw := (List.range (min f (7 - r))).map
    (fun i => (r + 1 + i) * 8 + (f - 1 - i))
  let se := (List.range (min (7 - f) r)).map
    (fun i => (r - 1 - i) * 8 + (f + 1 + i))
  let sw := (List.range (min f r)).map
    (fun i => (r - 1 - i) * 8 + (f - 1 - i))
  ray occ ne ||| ray occ nw ||| ray occ se ||| ray occ sw

/-- `pawnCaptureSources(toSq, color)` (identical in both sources):
squares from which a pawn of `color` can capture to `toSq`. -/
def pawnCaptureSources (toSq : Nat) (color : Side) : Nat :=
  let f := toSq % 8
  let r := toSq / 8
  if color = false then
    (if 1 ≤ r ∧ 1 ≤ f then bit ((r - 1) * 8 + (f - 1)) else 0) |||
    (if 1 ≤ r ∧ f < 7 then bit ((r - 1) * 8 + (f + 1)) else 0)
  else
    (if r < 7 ∧ 1 ≤ f then bit ((r + 1) * 8 + (f - 1)) else 0) |||
    (if r < 7 ∧ f < 7 then bit ((r + 1) * 8 + (f + 1)) else 0)

/-- The file mask the JS `filterDisamb` and `resolveSAN` build inline
from a file index (the eight-term or-expression over ranks). -/
def fileMaskOf (fileIdx : Nat) : Nat :=
  (1 <<< fileIdx) ||| (1 <<< (8 + fileIdx)) ||| (1 <<< (16 + fileIdx)) |||
  (1 <<< (24 + fileIdx)) ||| (1 <<< (32 + fileIdx)) ||| (1 <<< (40 + fileIdx)) |||
  (1 <<< (48 + fileIdx)) ||| (1 <<< (56 + fileIdx))

/-- `file_masks[f]` of the C source, built by the `init_tables` loop
`for r: m |= BIT(r*8+f)`. -/
def file_masks (f : Nat) : Nat :=
  (List.range 8).foldl (fun m r => m ||| bit (r * 8 + f)) 0

/-- `rank_masks[r]` of the C source: `0xff << (r*8)` (the JS
`filterDisamb` computes the same mask inline). -/
def rank_masks (r : Nat) : Nat := 0xff <<< (r * 8)

/-- The scan loop shared by `filterDisamb` (JS) and `filter_disamb` (C):
walk squares 0..63; remember the first set bit; return -1 as soon as a
second one is seen. -/
def findSingle (bb : Nat) : List Nat → Int → Int
  | [], found => found
  | sq :: rest, found =>
    if bb &&& bit sq ≠ 0 then
      if 0 ≤ found then -1 else findSingle bb rest sq
    else findSingle bb rest found

/-- The masked candidate set built by the first half of `filterDisamb`
(index.mjs): intersect with the file mask and/or rank mask named by the
optional disambiguation characters. -/
def disambMask (candidates : Nat) (disambFile disambRank : Option Char) : Nat :=
  let bb := match disambFile with
    | some fc => candidates &&& fileMaskOf (fc.toNat - 97)
    | none => candidates
  match disambRank with
  | some rc => bb &&& (0xff <<< ((rc.toNat - 49) * 8))
  | none => bb

/-- `filterDisamb(candidates, disambFile, disambRank)` of index.mjs:
apply the optional file/rank masks, then return the unique remaining
square or -1. -/
def filterDisamb (candidates : Nat) (disambFile disambRank : Option Char) : Int :=
  findSingle (disambMask candidates disambFile disambRank) (List.range 64) (-1)

/-- Character classes used by both parsers. -/
def isFileChar (c : Char) : Bool := 'a' ≤ c ∧ c ≤ 'h'

def isRankChar (c : Char) : Bool := '1' ≤ c ∧ c ≤ '8'

def isPromoChar (c : Char) : Bool := c = 'N' ∨ c = 'B' ∨ c = 'R' ∨ c = 'Q'

def isPieceChar (c : Char) : Bool :=
  c = 'N' ∨ c = 'B' ∨ c = 'R' ∨ c = 'Q' ∨ c = 'K'

/-- `squareToIndex("xy")` of index.mjs / `square_to_index` of the C
source: file letter and rank digit to 0..63 (a1 = 0, h8 = 63). -/
def squareToIndex (fc rc : Char) : Int :=
  ((rc.toNat : Int) - 49) * 8 + ((fc.toNat : Int) - 97)

/-- Result record of `parseSAN` (index.mjs) — `{ piece, targetIndex,
disambFile, disambRank, promotion, castle }`; `piece = none` means pawn,
`targetIndex = -1` for castles. -/
structure PRes where
  piece : Option Char
  targetIndex : Int
  disambFile : Option Char
  disambRank : Option Char
  promotion : Option Char
  castle : Option Char
deriving DecidableEq, Repr

/-- `String.trim` of the JS source (`String(san).trim()` removes
whitespace from both ends). -/
def jsTrim (s : List Char) : List Char :=
  ((s.dropWhile Char.isWhitespace).reverse.dropWhile Char.isWhitespace).reverse

/-- `parseSAN(san)` of index.mjs.  The regex
`([a-h][1-8])(?:=([NBRQ]))?$` anchors the destination square (optionally
followed by `=N|B|R|Q`) at the very end of the string; it is rendered
here as the two explicit end-of-string shape tests.  Note the regex
does NOT skip trailing characters such as a check or mate annotation. -/
def parseSAN (san : List Char) : Option PRes :=
  let s := jsTrim san
  if s = ['O', '-', 'O'] then
    some ⟨none, -1, none, none, none, some 'K'⟩
  else if s = ['O', '-', 'O', '-', 'O'] then
    some ⟨none, -1, none, none, none, some 'Q'⟩
  else
    let n := s.length
    let matched : Option (Nat × Option Char) :=
      -- `([a-h][1-8])$` (no promotion): last two chars are a square
      if 2 ≤ n ∧ isFileChar (s.getD (n - 2) ' ') ∧ isRankChar (s.getD (n - 1) ' ') then
        some (2, none)
      -- `([a-h][1-8])=([NBRQ])$`: square, then '=', then promotion letter
      else if 4 ≤ n ∧ s.getD (n - 2) ' ' = '=' ∧ isPromoChar (s.getD (n - 1) ' ') ∧
          isFileChar (s.getD (n - 4) ' ') ∧ isRankChar (s.getD (n - 3) ' ') then
        some (4, some ((s.getD (n - 1) ' ').toLower))
      else none
    match matched with
    | none => none
    | some (matchLen, promotion) =>
      let targetIndex := squareToIndex (s.getD (n - matchLen) ' ') (s.getD (n - matchLen + 1) ' ')
      -- rest = s.slice(0, n - matchLen).replace(/x$/, '')
      let rest0 := s.take (n - matchLen)
      let rest1 := if rest0.getLast? = some 'x' then rest0.dropLast else rest0
      let pieceAndRest : Option Char × List Char :=
        if 0 < rest1.length ∧ isPieceChar (rest1.getD 0 ' ') then
          (some (rest1.getD 0 ' '), rest1.tail)
        else (none, rest1)
      let piece := pieceAndRest.1
      let rest := pieceAndRest.2
      let disamb : Option Char × Option Char :=
        if 1 ≤ rest.length then
          let df := if isFileChar (rest.getD 0 ' ') then some (rest.getD 0 ' ') else none
          let dr := if isRankChar (rest.getD (rest.length - 1) ' ') then
              some (rest.getD (rest.length - 1) ' ') else none
          if rest.length = 2 ∧ isFileChar (rest.getD 0 ' ') ∧ isRankChar (rest.getD 1 ' ') then
            (some (rest.getD 0 ' '), some (rest.getD 1 ' '))
          else (df, dr)
        else (none, none)
      some ⟨piece, targetIndex, disamb.1, disamb.2, promotion, none⟩

/-- Move descriptor `{ from, to, promotion?, castle?, enpassant? }`
(produced by `resolveSAN` / `resolve_san`, consumed by `makeMove` /
`make_move`).  Absent optional fields of the JS object are `none` /
`false`. -/
structure Move where
  fromSq : Nat
  toSq : Nat
  promotion : Option Char := none
  castle : Option Char := none
  enpassant : Bool := false
deriving DecidableEq, Repr

/-- The position record (fields of the `BitboardChess` class /
`Board` struct): one white/black pair of bitboards per piece kind plus
the game-state metadata. -/
structure Board where
  pawns : Nat × Nat
  knights : Nat × Nat
  bishops : Nat × Nat
  rooks : Nat × Nat
  queens : Nat × Nat
  kings : Nat × Nat
  sideToMove : Side
  castling : List Char
  enPassant : Int
  halfmove : Nat
  fullmove : Nat
deriving DecidableEq, Repr

/-- `occupancy(color)` (both sources). -/
def occupancy (b : Board) (color : Side) : Nat :=
  sel b.pawns color ||| sel b.knights color ||| sel b.bishops color |||
  sel b.rooks color ||| sel b.queens color ||| sel b.kings color

/-- `allOcc()` (both sources). -/
def allOcc (b : Board) : Nat :=
  occupancy b false ||| occupancy b true

/-- The standard initial position (`reset`/`_setInitialPosition` in
index.mjs, `board_reset` in the C source — identical constants). -/
def initialBoard : Board where
  pawns := (0x000000000000FF00, 0x00FF000000000000)
  knights := (0x0000000000000042, 0x4200000000000000)
  bishops := (0x0000000000000024, 0x2400000000000000)
  rooks := (0x0000000000000081, 0x8100000000000000)
  queens := (0x0000000000000008, 0x0800000000000000)
  kings := (0x0000000000000010, 0x1000000000000000)
  sideToMove := false
  castling := ['K', 'Q', 'k', 'q']
  enPassant := -1
  halfmove := 0
  fullmove := 1

/-- The fallback count loop of `resolveSAN` / `resolve_san`: when
`filterDisamb` failed but the unfiltered candidate set is non-empty,
count its bits over squares 0..63 (with the sources' early break once the
count exceeds one) and keep the last square seen. -/
def countHits (bb : Nat) : List Nat → Nat → Int → Nat × Int
  | [], count, fromSq => (count, fromSq)
  | sq :: rest, count, fromSq =>
    if bb &&& bit sq ≠ 0 then
      if 1 < count + 1 then (count + 1, sq)
      else countHits bb rest (count + 1) sq
    else countHits bb rest count fromSq

/-- The candidate-origin bitboard computed by `resolveSAN` (index.mjs)
for a parsed non-castle SAN, by leading piece type.  For a pawn push the
JS `bit(oneBack)` / `bit(twoBack)` shifts may see a negative count
(destination on rank 1 with white to move), which for BigInt yields 0 —
`jsBit` models exactly that. -/
def candidatesFor (b : Board) (p : PRes) : Nat :=
  let side := b.sideToMove
  let occ := allOcc b
  let toSq := p.targetIndex.toNat
  match p.piece with
  | some 'K' => kingAttacks toSq &&& sel b.kings side
  | some 'N' => knightAttacks toSq &&& sel b.knights side
  | some 'R' => getRookAttacks toSq occ &&& sel b.rooks side
  | some 'B' => getBishopAttacks toSq occ &&& sel b.bishops side
  | some 'Q' => (getRookAttacks toSq occ ||| getBishopAttacks toSq occ) &&& sel b.queens side
  | _ =>
    match p.disambFile with
    | some fc =>
      -- capture form: pawns that can capture to toSq, restricted to the file
      (pawnCaptureSources toSq side &&& sel b.pawns side) &&& fileMaskOf (fc.toNat - 97)
    | none =>
      -- push form
      let oneBack : Int := if side = false then p.targetIndex - 8 else p.targetIndex + 8
      let twoBack : Int := if side = false then p.targetIndex - 16 else p.targetIndex + 16
      let toRank := toSq / 8
      if sel b.pawns side &&& jsBit oneBack ≠ 0 then jsBit oneBack
      else if (if side = false then toRank = 3 else toRank = 4) ∧
          sel b.pawns side &&& jsBit twoBack ≠ 0 ∧ occ &&& jsBit oneBack = 0 then
        jsBit twoBack
      else 0

/-- The origin-square selection of `resolveSAN` (index.mjs): the
`filterDisamb` result, falling back — when it failed and the unfiltered
candidate set is non-empty — to the unique set bit of the unfiltered
candidates (counted with an early break past two). -/
def resolveFrom (b : Board) (p : PRes) : Int :=
  let candidates := candidatesFor b p
  let fromSq0 := filterDisamb candidates p.disambFile p.disambRank
  if fromSq0 < 0 ∧ candidates ≠ 0 then
    let cf := countHits candidates (List.range 64) 0 fromSq0
    if cf.1 ≠ 1 then -1 else cf.2
  else fromSq0

/-- `resolveSAN(san)` of index.mjs: parse, build the candidate set,
disambiguate (with the unfiltered-singleton fallback), and assemble the
move object; `none` models the JS `null`. -/
def resolveSAN (b : Board) (san : List Char) : Option Move :=
  match parseSAN san with
  | none => none
  | some p =>
    let side := b.sideToMove
    let occ := allOcc b
    match p.castle with
    | some c =>
      let fromSq := if side = false then 4 else 60
      let toSqKing := if c = 'K' then (if side = false then 6 else 62)
        else (if side = false then 2 else 58)
      some ⟨fromSq, toSqKing, none, some c, false⟩
    | none =>
      let toSq := p.targetIndex.toNat
      let fromSq := resolveFrom b p
      if fromSq < 0 then none
      else
        some ⟨fromSq.toNat, toSq, p.promotion, none,
          p.piece = none ∧ p.disambFile.isSome ∧ occ &&& bit toSq = 0⟩

/-- `movePiece(arr)` of `makeMove` (index.mjs): if the side's set holds
the origin bit, toggle it off and set the destination bit; report
whether it moved. -/
def movePiece (pr : Nat × Nat) (side : Side) (fromBB toBB : Nat) : (Nat × Nat) × Bool :=
  if sel pr side &&& fromBB ≠ 0 then
    (updSel pr side ((sel pr side ^^^ fromBB) ||| toBB), true)
  else (pr, false)

/-- `this.castling.replace(side === WHITE ? /K|Q/g : /k|q/g, "")`:
remove every castling letter of the given side. -/
def stripSideCastling (castling : List Char) (side : Side) : List Char :=
  castling.filter (fun c =>
    if side = false then ¬(c = 'K' ∨ c = 'Q') else ¬(c = 'k' ∨ c = 'q'))

/-- `str.replace(ch, "")` for a single character: remove the first
occurrence only (JS `String.replace` with a string pattern). -/
def removeFirst (ch : Char) : List Char → List Char
  | [] => []
  | c :: rest => if c = ch then rest else c :: removeFirst ch rest

/-- `_finishMove()` of index.mjs: flip the side to move and increment
the fullmove counter when the new side to move is white. -/
def finishMove (b : Board) : Board :=
  let b := { b with sideToMove := !b.sideToMove }
  if b.sideToMove = false then { b with fullmove := b.fullmove + 1 } else b

/-- Step 1 of `makeMove`/`make_move` (identical in both sources):
castle — toggle the king between the descriptor squares, toggle the
rook between its home and post-castle squares, drop the side's castling
letters (done by a regex replace in JS and an equivalent copy loop in
C), and end the turn. -/
def castleStep (b : Board) (m : Move) (c : Char) : Board :=
  let side := b.sideToMove
  let fromBB := bit m.fromSq
  let toBB := bit m.toSq
  let kings := updSel b.kings side (sel b.kings side ^^^ (fromBB ||| toBB))
  let rooks :=
    if c = 'K' then
      if side = false then updSel b.rooks false (sel b.rooks false ^^^ (bit 7 ||| bit 5))
      else updSel b.rooks true (sel b.rooks true ^^^ (bit 63 ||| bit 61))
    else
      if side = false then updSel b.rooks false (sel b.rooks false ^^^ (bit 0 ||| bit 3))
      else updSel b.rooks true (sel b.rooks true ^^^ (bit 56 ||| bit 59))
  finishMove { b with
    kings := kings, rooks := rooks,
    castling := stripSideCastling b.castling side }

/-- Step 3 of `makeMove`/`make_move` (identical in both sources):
unconditionally clear the destination from every enemy piece set. -/
def clearEnemyAt (b : Board) (enemy : Side) (toBB : Nat) : Board :=
  { b with
    pawns := updSel b.pawns enemy (andNot (sel b.pawns enemy) toBB),
    knights := updSel b.knights enemy (andNot (sel b.knights enemy) toBB),
    bishops := updSel b.bishops enemy (andNot (sel b.bishops enemy) toBB),
    rooks := updSel b.rooks enemy (andNot (sel b.rooks enemy) toBB),
    queens := updSel b.queens enemy (andNot (sel b.queens enemy) toBB),
    kings := updSel b.kings enemy (andNot (sel b.kings enemy) toBB) }

/-- Step 4 of `makeMove` (index.mjs): the `movePiece` else-chain —
pawns, knights, bishops, rooks, queens, kings, first match wins; the
second component reports `movedPawn`.  When no set holds the origin,
`movePiece(this.kings)` finds nothing and the board is unchanged. -/
def relocate (b : Board) (side : Side) (fromBB toBB : Nat) : Board × Bool :=
  let mp := movePiece b.pawns side fromBB toBB
  if mp.2 then ({ b with pawns := mp.1 }, true)
  else
    let mn := movePiece b.knights side fromBB toBB
    if mn.2 then ({ b with knights := mn.1 }, false)
    else
      let mb := movePiece b.bishops side fromBB toBB
      if mb.2 then ({ b with bishops := mb.1 }, false)
      else
        let mr := movePiece b.rooks side fromBB toBB
        if mr.2 then ({ b with rooks := mr.1 }, false)
        else
          let mq := movePiece b.queens side fromBB toBB
          if mq.2 then ({ b with queens := mq.1 }, false)
          else ({ b with kings := (movePiece b.kings side fromBB toBB).1 }, false)

/-- Step 5 of `makeMove`/`make_move` (identical in both sources):
promotion — drop the pawn bit at the destination and set the promoted
set's bit there; any letter other than q, r, b promotes to a knight. -/
def promote (b : Board) (side : Side) (toBB : Nat) : Option Char → Board
  | none => b
  | some pc =>
    let b := { b with pawns := updSel b.pawns side (andNot (sel b.pawns side) toBB) }
    if pc = 'q' then { b with queens := updSel b.queens side (sel b.queens side ||| toBB) }
    else if pc = 'r' then { b with rooks := updSel b.rooks side (sel b.rooks side ||| toBB) }
    else if pc = 'b' then { b with bishops := updSel b.bishops side (sel b.bishops side ||| toBB) }
    else { b with knights := updSel b.knights side (sel b.knights side ||| toBB) }

/-- Step 6 of `makeMove`/`make_move` (identical in both sources): set
the en-passant square to the midpoint after a double pawn step, clear
it otherwise. -/
def epUpdate (b : Board) (m : Move) (movedPawn : Bool) : Board :=
  if movedPawn ∧ ((m.toSq : Int) - (m.fromSq : Int)).natAbs = 16 then
    { b with enPassant := ((m.fromSq + m.toSq) / 2 : Nat) }
  else { b with enPassant := -1 }

/-- Step 7a of `makeMove` (index.mjs): drop the side's castling letters
when `fromBB & this.kings[side]` is non-empty — evaluated on the
post-relocation king set. -/
def kingRights (b : Board) (side : Side) (fromBB : Nat) : Board :=
  if fromBB &&& sel b.kings side ≠ 0 then
    { b with castling := stripSideCastling b.castling side }
  else b

/-- Step 7b of `makeMove` (index.mjs): when a rook moved, remove the
first occurrence of the letter of each matching home corner. -/
def rookRights (b : Board) (m : Move) (movedRook : Bool) : Board :=
  if movedRook then
    let cs := b.castling
    let cs := if m.fromSq = 0 then removeFirst 'Q' cs else cs
    let cs := if m.fromSq = 7 then removeFirst 'K' cs else cs
    let cs := if m.fromSq = 56 then removeFirst 'q' cs else cs
    let cs := if m.fromSq = 63 then removeFirst 'k' cs else cs
    { b with castling := cs }
  else b

/-- `makeMove(move)` of index.mjs, the state transition (no
validation), assembled from the source's numbered steps: 1 castling,
2 en-passant capture, 3 unconditional capture removal, 4 piece
relocation, 5 promotion, 6 en-passant-square update, 7 castling-rights
update, 8 finish. -/
def makeMove (b : Board) (m : Move) : Board :=
  let side := b.sideToMove
  let enemy := !side
  let fromBB := bit m.fromSq
  let toBB := bit m.toSq
  match m.castle with
  | some c => castleStep b m c
  | none =>
    let b :=
      if m.enpassant then
        let capSq : Int := if side = false then (m.toSq : Int) - 8 else (m.toSq : Int) + 8
        { b with pawns := updSel b.pawns enemy (andNot (sel b.pawns enemy) (jsBit capSq)) }
      else b
    let b := clearEnemyAt b enemy toBB
    let movedRook := sel b.rooks side &&& fromBB ≠ 0
    let step4 := relocate b side fromBB toBB
    let b := promote step4.1 side toBB m.promotion
    let b := epUpdate b m step4.2
    let b := kingRights b side fromBB
    let b := rookRights b m movedRook
    finishMove b

/-- `makeMoveSAN(san)` of index.mjs, state part: resolve and apply; a
failed resolution leaves the board unchanged (the method returns
false). -/
def makeMoveSAN (b : Board) (san : List Char) : Board :=
  match resolveSAN b san with
  | none => b
  | some m => makeMove b m

/-- One step of the `mulberry32` generator (seed 0x5eed), producing a
32-bit value and the next state.  The JS version keeps an unwrapped
accumulating seed but every use site coerces it with 32-bit bitwise
operators (ToUint32/ToInt32 and `Math.imul`), and the C version wraps the
state in `uint32_t`; both therefore produce exactly the values computed
here (all arithmetic mod 2^32). -/
def mulberry32 (s : Nat) : Nat × Nat :=
  let s1 := (s + 0x6d2b79f5) &&& 0xffffffff
  let t1 := ((s1 ^^^ (s1 >>> 15)) * (s1 ||| 1)) &&& 0xffffffff
  let t2 := t1 ^^^ (t1 >>> 7)
  let t3 := t2 ^^^ (t2 >>> 12)
  (t3, s1)

/-- `random64(prng)`: two successive 32-bit draws, low half first. -/
def random64 (s : Nat) : Nat × Nat :=
  let lo := mulberry32 s
  let hi := mulberry32 lo.2
  ((hi.1 <<< 32) ||| lo.1, hi.2)

/-- The generator state after `k` successive `random64` draws from
seed `s`. -/
def zobSeedAfter (k : Nat) (s : Nat) : Nat :=
  (List.range k).foldl (fun a _ => (random64 a).2) s

/-- All 781 Zobrist values drawn by `initZobrist` (JS) / `init_tables`
(C), in generation order (the value at index `k` is the output of the
`k+1`-st `random64` call): 64 x 12 piece values, then the side value,
then 4 castling values, then 8 en-passant file values, from seed
0x5eed. -/
def zobristValues : List Nat :=
  (List.range 781).map (fun k => (random64 (zobSeedAfter k 0x5eed)).1)

/-- `ZOBRIST_PIECES[sq][pt]` (sq-major, 12 piece types per square). -/
def ZOBRIST_PIECES (sq pt : Nat) : Nat := zobristValues.getD (sq * 12 + pt) 0

/-- `ZOBRIST_SIDE.value`. -/
def ZOBRIST_SIDE : Nat := zobristValues.getD 768 0

/-- `ZOBRIST_CASTLE[i]` for i in 0..3. -/
def ZOBRIST_CASTLE (i : Nat) : Nat := zobristValues.getD (769 + i) 0

/-- `ZOBRIST_EP[f]` for f in 0..7. -/
def ZOBRIST_EP (f : Nat) : Nat := zobristValues.getD (773 + f) 0

/-- `castlingIndex = { K: 0, Q: 1, k: 2, q: 3 }` of `getZobristKey`.
The JS lookup is undefined (and the XOR faults) for any other character;
every use in this development passes one of the four letters, and the
function is total-ized with 0 for other characters. -/
def castlingIndex (c : Char) : Nat :=
  if c = 'K' then 0 else if c = 'Q' then 1 else if c = 'k' then 2
  else if c = 'q' then 3 else 0

/-- The per-square contribution of `getZobristKey`'s inner loop: probe
the piece sets in the fixed order white/black pawns, knights, bishops,
rooks, queens, kings; XOR the value of the first set holding the square
(`break`). -/
def zobPieceContrib (b : Board) (sq : Nat) : Nat :=
  if sel b.pawns false &&& bit sq ≠ 0 then ZOBRIST_PIECES sq 0
  else if sel b.pawns true &&& bit sq ≠ 0 then ZOBRIST_PIECES sq 6
  else if sel b.knights false &&& bit sq ≠ 0 then ZOBRIST_PIECES sq 1
  else if sel b.knights true &&& bit sq ≠ 0 then ZOBRIST_PIECES sq 7
  else if sel b.bishops false &&& bit sq ≠ 0 then ZOBRIST_PIECES sq 2
  else if sel b.bishops true &&& bit sq ≠ 0 then ZOBRIST_PIECES sq 8
  else if sel b.rooks false &&& bit sq ≠ 0 then ZOBRIST_PIECES sq 3
  else if sel b.rooks true &&& bit sq ≠ 0 then ZOBRIST_PIECES sq 9
  else if sel b.queens false &&& bit sq ≠ 0 then ZOBRIST_PIECES sq 4
  else if sel b.queens true &&& bit sq ≠ 0 then ZOBRIST_PIECES sq 10
  else if sel b.kings false &&& bit sq ≠ 0 then ZOBRIST_PIECES sq 5
  else if sel b.kings true &&& bit sq ≠ 0 then ZOBRIST_PIECES sq 11
  else 0

/-- `getZobristKey()` of index.mjs: fold the per-square piece values
over squares 0..63, then the side-to-move value (black only), the value
of each held castling right, and the en-passant file value. -/
def getZobristKey (b : Board) : Nat :=
  let key := (List.range 64).foldl (fun k sq => k ^^^ zobPieceContrib b sq) 0
  let key := if b.sideToMove = true then key ^^^ ZOBRIST_SIDE else key
  let key := b.castling.foldl (fun k c => k ^^^ ZOBRIST_CASTLE (castlingIndex c)) key
  if 0 ≤ b.enPassant then key ^^^ ZOBRIST_EP (b.enPassant.tmod 8).toNat else key

/-- The `check(arr, w, b)` chain of `toFEN`: the piece letter shown for
a square, probing the sets in the same order as `zobPieceContrib`. -/
def pieceCharAt (b : Board) (sq : Nat) : Option Char :=
  if sel b.pawns false &&& bit sq ≠ 0 then some 'P'
  else if sel b.pawns true &&& bit sq ≠ 0 then some 'p'
  else if sel b.knights false &&& bit sq ≠ 0 then some 'N'
  else if sel b.knights true &&& bit sq ≠ 0 then some 'n'
  else if sel b.bishops false &&& bit sq ≠ 0 then some 'B'
  else if sel b.bishops true &&& bit sq ≠ 0 then some 'b'
  else if sel b.rooks false &&& bit sq ≠ 0 then some 'R'
  else if sel b.rooks true &&& bit sq ≠ 0 then some 'r'
  else if sel b.queens false &&& bit sq ≠ 0 then some 'Q'
  else if sel b.queens true &&& bit sq ≠ 0 then some 'q'
  else if sel b.kings false &&& bit sq ≠ 0 then some 'K'
  else if sel b.kings true &&& bit sq ≠ 0 then some 'k'
  else none

/-- Decimal digit character (run lengths 1..8 in FEN placement). -/
def digitChar (n : Nat) : Char := Char.ofNat (48 + n)

/-- The run-length encoding loop of `toFEN` for one rank, with the
pending count of consecutive empty squares as accumulator: a piece flushes
the pending digit first; the end of the rank flushes a leftover count. -/
def encodeCells : List (Option Char) → Nat → List Char
  | [], 0 => []
  | [], e + 1 => [digitChar (e + 1)]
  | none :: cs, e => encodeCells cs (e + 1)
  | some c :: cs, 0 => c :: encodeCells cs 0
  | some c :: cs, e + 1 => digitChar (e + 1) :: c :: encodeCells cs 0

/-- The eight per-square piece letters of rank `r` (files a..h). -/
def rankCells (b : Board) (r : Nat) : List (Option Char) :=
  (List.range 8).map (fun f => pieceCharAt b (r * 8 + f))

/-- The placement field of `toFEN`: ranks 8 down to 1, '/'-separated. -/
def fenPlacement (b : Board) : List Char :=
  List.intercalate ['/']
    (((List.range 8).reverse).map (fun r => encodeCells (rankCells b r) 0))

/-- The en-passant field of `toFEN`: "-" or file letter plus rank
number.  (`%` and `Math.floor(... / 8)` of the source are `Int.tmod` and
`Int.fdiv`; the branch is only reached with `enPassant ≠ -1`, and every
position this development builds has `enPassant` either -1 or in 0..63,
where both agree with plain `Nat` arithmetic.) -/
def fenEp (ep : Int) : List Char :=
  if ep = -1 then ['-']
  else Char.ofNat (97 + ep.tmod 8).toNat :: Nat.toDigits 10 (ep.fdiv 8 + 1).toNat

/-- `toFEN()` of index.mjs: placement, side, castling (or "-"),
en passant (or "-"), halfmove clock, fullmove number, space-separated. -/
def toFEN (b : Board) : List Char :=
  fenPlacement b ++
  [' ', if b.sideToMove = false then 'w' else 'b', ' '] ++
  (if b.castling = [] then ['-'] else b.castling) ++
  [' '] ++ fenEp b.enPassant ++
  [' '] ++ Nat.toDigits 10 b.halfmove ++
  [' '] ++ Nat.toDigits 10 b.fullmove

/-- Zero out the twelve piece sets (the assignments at the top of
`loadFromFEN` / `board_load_fen`). -/
def clearPieces (b : Board) : Board :=
  { b with
    pawns := (0, 0), knights := (0, 0), bishops := (0, 0),
    rooks := (0, 0), queens := (0, 0), kings := (0, 0) }

/-- Place one FEN placement character (`loadFromFEN`'s if-chain); an
unrecognized character sets nothing (but still consumes a file). -/
def placeChar (b : Board) (sq : Nat) (ch : Char) : Board :=
  if ch = 'P' then { b with pawns := updSel b.pawns false (sel b.pawns false ||| bit sq) }
  else if ch = 'N' then { b with knights := updSel b.knights false (sel b.knights false ||| bit sq) }
  else if ch = 'B' then { b with bishops := updSel b.bishops false (sel b.bishops false ||| bit sq) }
  else if ch = 'R' then { b with rooks := updSel b.rooks false (sel b.rooks false ||| bit sq) }
  else if ch = 'Q' then { b with queens := updSel b.queens false (sel b.queens false ||| bit sq) }
  else if ch = 'K' then { b with kings := updSel b.kings false (sel b.kings false ||| bit sq) }
  else if ch = 'p' then { b with pawns := updSel b.pawns true (sel b.pawns true ||| bit sq) }
  else if ch = 'n' then { b with knights := updSel b.knights true (sel b.knights true ||| bit sq) }
  else if ch = 'b' then { b with bishops := updSel b.bishops true (sel b.bishops true ||| bit sq) }
  else if ch = 'r' then { b with rooks := updSel b.rooks true (sel b.rooks true ||| bit sq) }
  else if ch = 'q' then { b with queens := updSel b.queens true (sel b.queens true ||| bit sq) }
  else if ch = 'k' then { b with kings := updSel b.kings true (sel b.kings true ||| bit sq) }
  else b

/-- The inner per-rank loop of `loadFromFEN`: walk the rank string with
a file cursor `f`, breaking once `f` reaches 8; digits skip files, other
characters place a piece and advance one file. -/
def loadRankChars (r : Nat) : List Char → Nat → Board → Board
  | [], _, b => b
  | ch :: rest, f, b =>
    if 8 ≤ f then b
    else if '1' ≤ ch ∧ ch ≤ '8' then loadRankChars r rest (f + (ch.toNat - 48)) b
    else loadRankChars r rest (f + 1) (placeChar b (r * 8 + f) ch)

/-- `parseInt(t, 10)` on a whitespace-free token: value of the leading
digit run, or none (NaN) when there is no leading digit.  (The tokens
this development feeds it never carry signs or prefixes.) -/
def jsParseNat (t : List Char) : Option Nat :=
  let ds := t.takeWhile Char.isDigit
  if ds = [] then none
  else some (ds.foldl (fun acc c => acc * 10 + (c.toNat - 48)) 0)

/-- `loadFromFEN(fen)` of index.mjs: tokenize on whitespace runs, parse
the eight placement ranks (returning the board unchanged when the rank
count differs from 8, as the source does), then side, castling token,
en-passant square, halfmove (`|| 0`) and fullmove (`|| 1`). -/
def loadFromFEN (b : Board) (fen : List Char) : Board :=
  let tokens := (List.splitOnP Char.isWhitespace (jsTrim fen)).filter (· ≠ [])
  let placement := tokens.getD 0 []
  if placement = [] then b
  else
    let ranks := List.splitOn '/' placement
    if ranks.length ≠ 8 then b
    else
      let b0 := clearPieces b
      let b1 := (List.range 8).foldl
        (fun acc r => loadRankChars r (ranks.getD (7 - r) []) 0 acc) b0
      let b2 := { b1 with sideToMove := tokens.getD 1 [] = ['b'] }
      let t2 := tokens.getD 2 []
      let b3 := { b2 with castling := if t2 ≠ [] ∧ t2 ≠ ['-'] then t2 else [] }
      let t3 := tokens.getD 3 []
      let b4 :=
        if t3 ≠ [] ∧ t3 ≠ ['-'] then
          let fileI : Int := ((t3.getD 0 ' ').toNat : Int) - 97
          let rc := t3.getD 1 ' '
          let rankI : Int := if rc.isDigit then ((rc.toNat : Int) - 49) else -99
          if 0 ≤ fileI ∧ fileI < 8 ∧ 0 ≤ rankI ∧ rankI < 8 then
            { b3 with enPassant := rankI * 8 + fileI }
          else { b3 with enPassant := -1 }
        else { b3 with enPassant := -1 }
      let b5 := { b4 with halfmove := (jsParseNat (tokens.getD 4 [])).getD 0 }
      { b5 with fullmove :=
          match jsParseNat (tokens.getD 5 []) with
          | none => 1
          | some 0 => 1
          | some v => v }

/-- Result record of `parse_san` (bitboard_chess.c).  The C struct uses
sentinel values (piece 0, disambFile and disambRank -1, promotion 0,
castle 0);
those sentinels are rendered as `none`, with `disambFile`/`disambRank`
holding the C 0..7 indices rather than the JS characters. -/
structure CPRes where
  piece : Option Char
  targetIndex : Int
  disambFile : Option Nat
  disambRank : Option Nat
  promotion : Option Char
  castle : Option Char
deriving DecidableEq, Repr

/-- The `while (rest_len > 0 && san[rest_len - 1] == 'x') rest_len--;`
loop of `parse_san`: strip every trailing 'x' from the first `n`
characters of `s` (the JS parser strips at most one). -/
def stripXLen (s : List Char) : Nat → Nat
  | 0 => 0
  | n + 1 => if s.getD n ' ' = 'x' then stripXLen s n else n + 1

/-- `parse_san(san, out)` of bitboard_chess.c; `none` models returning
false.  Only leading ' ' characters are skipped (the JS parser trims all
whitespace from both ends), and the castle literals are recognized by
prefix (`strncmp`), not by exact match as in JS. -/
def parse_san (san : List Char) : Option CPRes :=
  let s := san.dropWhile (· = ' ')
  if s.take 5 = ['O', '-', 'O', '-', 'O'] then
    some ⟨none, -1, none, none, none, some 'Q'⟩
  else if s.take 3 = ['O', '-', 'O'] then
    some ⟨none, -1, none, none, none, some 'K'⟩
  else
    let len := s.length
    if len < 2 then none
    else
      let promoShape := 4 ≤ len ∧ s.getD (len - 2) ' ' = '=' ∧ isPromoChar (s.getD (len - 1) ' ')
      let promotion : Option Char :=
        if promoShape then some ((s.getD (len - 1) ' ').toLower) else none
      let pIdx := if promoShape then len - 4 else len - 2
      if ¬(isFileChar (s.getD pIdx ' ') ∧ isRankChar (s.getD (pIdx + 1) ' ')) then none
      else
        let targetIndex := squareToIndex (s.getD pIdx ' ') (s.getD (pIdx + 1) ' ')
        let restLen0 := len - 2 - (if promoShape then 2 else 0)
        let restLen := stripXLen s restLen0
        let fields : Option Char × Option Nat × Option Nat :=
          if 0 < restLen then
            let c := s.getD 0 ' '
            let base : Option Char × Option Nat × Option Nat :=
              if isPieceChar c then
                (some c,
                 if 2 ≤ restLen ∧ isFileChar (s.getD 1 ' ') then some ((s.getD 1 ' ').toNat - 97) else none,
                 if isRankChar (s.getD (restLen - 1) ' ') then some ((s.getD (restLen - 1) ' ').toNat - 49) else none)
              else
                (none,
                 if isFileChar (s.getD 0 ' ') then some ((s.getD 0 ' ').toNat - 97) else none,
                 if isRankChar (s.getD (restLen - 1) ' ') then some ((s.getD (restLen - 1) ' ').toNat - 49) else none)
            if restLen = 2 ∧ isFileChar (s.getD 0 ' ') ∧ isRankChar (s.getD 1 ' ') then
              (base.1, some ((s.getD 0 ' ').toNat - 97), some ((s.getD 1 ' ').toNat - 49))
            else base
          else (none, none, none)
        some ⟨fields.1, targetIndex, fields.2.1, fields.2.2, promotion, none⟩

/-- `BIT(sq)` of the C source for an arbitrary int shift count.  A C
shift by a negative or >= 64 count is undefined behaviour; it is
resolved here to the x86-64 hardware behaviour the addon actually runs
on (shift count taken mod 64), which is where the C engine observably
diverges from the JS engine (whose BigInt shift by a negative count
yields 0). -/
def cBIT (sq : Int) : Nat := 1 <<< (sq.emod 64).toNat

/-- `filter_disamb(candidates, disamb_file, disamb_rank)` of
bitboard_chess.c, with the file/rank masks taken from the precomputed
`file_masks` / `rank_masks` tables. -/
def filter_disamb (candidates : Nat) (df dr : Option Nat) : Int :=
  let bb := match df with
    | some f => candidates &&& file_masks f
    | none => candidates
  let bb := match dr with
    | some r => bb &&& rank_masks r
    | none => bb
  findSingle bb (List.range 64) (-1)

/-- The candidate-origin bitboard of `resolve_san` (bitboard_chess.c);
same structure as the JS `candidatesFor` but using `cBIT` for the pawn
push and the integer disambiguation file. -/
def c_candidates_for (b : Board) (p : CPRes) : Nat :=
  let side := b.sideToMove
  let occ := allOcc b
  let toSq := p.targetIndex.toNat
  match p.piece with
  | some 'K' => kingAttacks toSq &&& sel b.kings side
  | some 'N' => knightAttacks toSq &&& sel b.knights side
  | some 'R' => getRookAttacks toSq occ &&& sel b.rooks side
  | some 'B' => getBishopAttacks toSq occ &&& sel b.bishops side
  | some 'Q' => (getRookAttacks toSq occ ||| getBishopAttacks toSq occ) &&& sel b.queens side
  | _ =>
    match p.disambFile with
    | some f => (pawnCaptureSources toSq side &&& sel b.pawns side) &&& file_masks f
    | none =>
      let oneBack : Int := if side = false then p.targetIndex - 8 else p.targetIndex + 8
      let twoBack : Int := if side = false then p.targetIndex - 16 else p.targetIndex + 16
      let toRank := toSq / 8
      if sel b.pawns side &&& cBIT oneBack ≠ 0 then cBIT oneBack
      else if (if side = false then toRank = 3 else toRank = 4) ∧
          sel b.pawns side &&& cBIT twoBack ≠ 0 ∧ occ &&& cBIT oneBack = 0 then
        cBIT twoBack
      else 0

/-- The origin-square selection of `resolve_san` (bitboard_chess.c),
mirroring `resolveFrom` of the JS engine over the C candidate set. -/
def c_resolve_from (b : Board) (p : CPRes) : Int :=
  let candidates := c_candidates_for b p
  let fromSq0 := filter_disamb candidates p.disambFile p.disambRank
  if fromSq0 < 0 ∧ candidates ≠ 0 then
    let cf := countHits candidates (List.range 64) 0 fromSq0
    if cf.1 ≠ 1 then -1 else cf.2
  else fromSq0

/-- `resolve_san(b, san, move)` of bitboard_chess.c; `none` models
returning false. -/
def resolve_san (b : Board) (san : List Char) : Option Move :=
  match parse_san san with
  | none => none
  | some p =>
    let side := b.sideToMove
    let occ := allOcc b
    match p.castle with
    | some c =>
      let fromSq := if side = false then 4 else 60
      let toSqKing := if c = 'K' then (if side = false then 6 else 62)
        else (if side = false then 2 else 58)
      some ⟨fromSq, toSqKing, none, some c, false⟩
    | none =>
      let toSq := p.targetIndex.toNat
      let fromSq := c_resolve_from b p
      if fromSq < 0 then none
      else
        some ⟨fromSq.toNat, toSq, p.promotion, none,
          p.piece = none ∧ p.disambFile.isSome ∧ occ &&& bit toSq = 0⟩

/-- The castle-branch / king-moved castling update of `make_move`
(bitboard_chess.c): the copy loop drops every letter of the moving side
(same effect as the JS regex replace). -/
def c_strip_side_castling (castling : List Char) (side : Side) : List Char :=
  castling.filter (fun c =>
    if side = false then ¬(c = 'K' ∨ c = 'Q') else ¬(c = 'k' ∨ c = 'q'))

/-- The rook-moved castling update of `make_move` (bitboard_chess.c):
one copy loop dropping every letter matched by the origin corner (the
JS source instead removes only the first occurrence of each letter). -/
def c_strip_rook_castling (castling : List Char) (fromSq : Nat) : List Char :=
  castling.filter (fun c =>
    ¬((fromSq = 0 ∧ c = 'Q') ∨ (fromSq = 7 ∧ c = 'K') ∨
      (fromSq = 56 ∧ c = 'q') ∨ (fromSq = 63 ∧ c = 'k')))

/-- The castle branch of `make_move` (bitboard_chess.c): same board
updates as the JS `castleStep`; the C copy loop drops every letter of
the moving side and the turn is ended inline. -/
def c_castle_step (b : Board) (m : Move) (c : Char) : Board :=
  let side := b.sideToMove
  let fromBB := bit m.fromSq
  let toBB := bit m.toSq
  let kings := updSel b.kings side (sel b.kings side ^^^ (fromBB ||| toBB))
  let rooks :=
    if c = 'K' then
      if side = false then updSel b.rooks false (sel b.rooks false ^^^ (bit 7 ||| bit 5))
      else updSel b.rooks true (sel b.rooks true ^^^ (bit 63 ||| bit 61))
    else
      if side = false then updSel b.rooks false (sel b.rooks false ^^^ (bit 0 ||| bit 3))
      else updSel b.rooks true (sel b.rooks true ^^^ (bit 56 ||| bit 59))
  let b := { b with
    kings := kings, rooks := rooks,
    castling := c_strip_side_castling b.castling side,
    sideToMove := !side }
  if b.sideToMove = false then { b with fullmove := b.fullmove + 1 } else b

/-- The relocation chain of `make_move` (bitboard_chess.c): same
first-match chain as the JS `relocate`, except that the final `else`
moves the king bits unconditionally, without checking that the king
actually sits on the origin square. -/
def c_relocate (b : Board) (side : Side) (fromBB toBB : Nat) : Board × Bool :=
  if sel b.pawns side &&& fromBB ≠ 0 then
    ({ b with pawns := updSel b.pawns side ((sel b.pawns side ^^^ fromBB) ||| toBB) }, true)
  else if sel b.knights side &&& fromBB ≠ 0 then
    ({ b with knights := updSel b.knights side ((sel b.knights side ^^^ fromBB) ||| toBB) }, false)
  else if sel b.bishops side &&& fromBB ≠ 0 then
    ({ b with bishops := updSel b.bishops side ((sel b.bishops side ^^^ fromBB) ||| toBB) }, false)
  else if sel b.rooks side &&& fromBB ≠ 0 then
    ({ b with rooks := updSel b.rooks side ((sel b.rooks side ^^^ fromBB) ||| toBB) }, false)
  else if sel b.queens side &&& fromBB ≠ 0 then
    ({ b with queens := updSel b.queens side ((sel b.queens side ^^^ fromBB) ||| toBB) }, false)
  else
    ({ b with kings := updSel b.kings side ((sel b.kings side ^^^ fromBB) ||| toBB) }, false)

/-- The king-moved castling update of `make_move` (bitboard_chess.c),
evaluated — like the JS version — on the post-relocation king set. -/
def c_king_rights (b : Board) (side : Side) (fromBB : Nat) : Board :=
  if sel b.kings side &&& fromBB ≠ 0 then
    { b with castling := c_strip_side_castling b.castling side }
  else b

/-- The rook-moved castling update of `make_move` (bitboard_chess.c):
one filtering copy loop over the four corner conditions. -/
def c_rook_rights (b : Board) (m : Move) (movedRook : Bool) : Board :=
  if movedRook then { b with castling := c_strip_rook_castling b.castling m.fromSq }
  else b

/-- `make_move(b, move)` of bitboard_chess.c: same step structure as
the JS `makeMove` (steps 2, 3, 5, 6 are shared definitions, being
line-for-line identical in the two sources); the C-specific pieces are
the relocation chain's unconditional king fallback and the
all-occurrences castling-letter removals. -/
def make_move (b : Board) (m : Move) : Board :=
  let side := b.sideToMove
  let enemy := !side
  let fromBB := bit m.fromSq
  let toBB := bit m.toSq
  match m.castle with
  | some c => c_castle_step b m c
  | none =>
    let b :=
      if m.enpassant then
        let capSq : Int := if side = false then (m.toSq : Int) - 8 else (m.toSq : Int) + 8
        { b with pawns := updSel b.pawns enemy (andNot (sel b.pawns enemy) (cBIT capSq)) }
      else b
    let b := clearEnemyAt b enemy toBB
    let movedRook := sel b.rooks side &&& fromBB ≠ 0
    let step4 := c_relocate b side fromBB toBB
    let b := promote step4.1 side toBB m.promotion
    let b := epUpdate b m step4.2
    let b := c_king_rights b side fromBB
    let b := c_rook_rights b m movedRook
    let b := { b with sideToMove := enemy }
    if b.sideToMove = false then { b with fullmove := b.fullmove + 1 } else b

/-- `board_make_move_san(b, san)` of bitboard_chess.c, state part. -/
def board_make_move_san (b : Board) (san : List Char) : Board :=
  match resolve_san b san with
  | none => b
  | some m => make_move b m

/-- The castling fold of `get_zobrist_key` (bitboard_chess.c): an
if-chain per letter; a letter outside KQkq contributes nothing (the JS
version instead looks the letter up in an object). -/
def c_castle_fold (castling : List Char) (key : Nat) : Nat :=
  castling.foldl
    (fun k c =>
      if c = 'K' then k ^^^ ZOBRIST_CASTLE 0
      else if c = 'Q' then k ^^^ ZOBRIST_CASTLE 1
      else if c = 'k' then k ^^^ ZOBRIST_CASTLE 2
      else if c = 'q' then k ^^^ ZOBRIST_CASTLE 3
      else k) key

/-- `get_zobrist_key(b)` of bitboard_chess.c (the piece scan is
bit-for-bit the JS scan, shared as `zobPieceContrib`). -/
def get_zobrist_key (b : Board) : Nat :=
  let key := (List.range 64).foldl (fun k sq => k ^^^ zobPieceContrib b sq) 0
  let key := if b.sideToMove = true then key ^^^ ZOBRIST_SIDE else key
  let key := c_castle_fold b.castling key
  if 0 ≤ b.enPassant then key ^^^ ZOBRIST_EP (b.enPassant.tmod 8).toNat else key

/-- `board_to_fen(b, out, maxlen)` of bitboard_chess.c (the probe chain
per square is bit-for-bit the JS chain, shared as `pieceCharAt`; the
128-byte buffer the addon passes always suffices, so no truncation is
modelled).  C `%` and `/` truncate, hence `tmod`/`tdiv` in the
en-passant field. -/
def board_to_fen (b : Board) : List Char :=
  List.intercalate ['/']
    (((List.range 8).reverse).map (fun r => encodeCells (rankCells b r) 0)) ++
  [' ', if b.sideToMove = false then 'w' else 'b', ' '] ++
  (if b.castling = [] then ['-'] else b.castling) ++
  [' '] ++
  (if 0 ≤ b.enPassant then
    Char.ofNat (97 + b.enPassant.tmod 8).toNat :: Nat.toDigits 10 (b.enPassant.tdiv 8 + 1).toNat
  else ['-']) ++
  [' '] ++ Nat.toDigits 10 b.halfmove ++
  [' '] ++ Nat.toDigits 10 b.fullmove

/-- `makeMoveSAN` folded over a list of SAN strings (the JS engine's
replay loop in the benchmark/test harnesses). -/
def applySANs (b : Board) (sans : List (List Char)) : Board :=
  sans.foldl makeMoveSAN b

/-- `board_make_move_san` folded over a list of SAN strings (the native
engine's replay loop). -/
def c_applySANs (b : Board) (sans : List (List Char)) : Board :=
  sans.foldl board_make_move_san b

/-- A move descriptor whose squares are in 0..63 (the interface range
of the origin/destination fields). -/
def WFMove (m : Move) : Prop := m.fromSq < 64 ∧ m.toSq < 64

instance : DecidablePred WFMove := fun m => by unfold WFMove; infer_instance

/-- A position produced from the standard initial position by a
sequence of applied move descriptors (with in-range squares). -/
def Reachable (p : Board) : Prop :=
  ∃ ms : List Move, (∀ m ∈ ms, WFMove m) ∧ p = ms.foldl makeMove initialBoard

/-- The number of squares in 0..63 whose bit is set in a bitboard (the
quantity the `filterDisamb` scan and the `resolveSAN` fallback count
effectively test against 1). -/
def hitCount (bb : Nat) : Nat :=
  ((List.range 64).filter (fun sq => decide (bb &&& bit sq ≠ 0))).length

/-- Piece-set index in the fixed probe order of `toFEN`'s `check` chain
and `getZobristKey`'s inner loop: white pawns, black pawns, white
knights, black knights, …, black kings. -/
def setGet (b : Board) : Nat → Nat
  | 0 => sel b.pawns false
  | 1 => sel b.pawns true
  | 2 => sel b.knights false
  | 3 => sel b.knights true
  | 4 => sel b.bishops false
  | 5 => sel b.bishops true
  | 6 => sel b.rooks false
  | 7 => sel b.rooks true
  | 8 => sel b.queens false
  | 9 => sel b.queens true
  | 10 => sel b.kings false
  | 11 => sel b.kings true
  | _ => 0

/-- The FEN letter of each piece-set (same order as `setGet`). -/
def pieceLetterOf : Nat → Char
  | 0 => 'P'
  | 1 => 'p'
  | 2 => 'N'
  | 3 => 'n'
  | 4 => 'B'
  | 5 => 'b'
  | 6 => 'R'
  | 7 => 'r'
  | 8 => 'Q'
  | 9 => 'q'
  | 10 => 'K'
  | 11 => 'k'
  | _ => '?'

/-- The `ZOBRIST_PIECES` column of each piece-set (same order as
`setGet`): white piece kinds use 0..5, black ones 6..11. -/
def zobPt : Nat → Nat
  | 0 => 0
  | 1 => 6
  | 2 => 1
  | 3 => 7
  | 4 => 2
  | 5 => 8
  | 6 => 3
  | 7 => 9
  | 8 => 4
  | 9 => 10
  | 10 => 5
  | 11 => 11
  | _ => 0

/-- The Zobrist piece value selected by a FEN piece letter (the bridge
between `pieceCharAt` and `zobPieceContrib`, which probe the piece sets
in the same order). -/
def zobOfChar (sq : Nat) : Option Char → Nat
  | some 'P' => ZOBRIST_PIECES sq 0
  | some 'p' => ZOBRIST_PIECES sq 6
  | some 'N' => ZOBRIST_PIECES sq 1
  | some 'n' => ZOBRIST_PIECES sq 7
  | some 'B' => ZOBRIST_PIECES sq 2
  | some 'b' => ZOBRIST_PIECES sq 8
  | some 'R' => ZOBRIST_PIECES sq 3
  | some 'r' => ZOBRIST_PIECES sq 9
  | some 'Q' => ZOBRIST_PIECES sq 4
  | some 'q' => ZOBRIST_PIECES sq 10
  | some 'K' => ZOBRIST_PIECES sq 5
  | some 'k' => ZOBRIST_PIECES sq 11
  | _ => 0

/-- Specification-side helper for the FEN placement round-trip: the
(square, letter) pairs a run of placement cells assigns, with `start`
the file of the first cell on rank `r`. -/
def assignments (r : Nat) : Nat → List (Option Char) → List (Nat × Char)
  | _, [] => []
  | start, none :: cs => assignments r (start + 1) cs
  | start, some c :: cs => (r * 8 + start, c) :: assignments r (start + 1) cs

/-- Fold `placeChar` over a list of (square, letter) assignments. -/
def placeList (A : List (Nat × Char)) (B : Board) : Board :=
  A.foldl (fun acc a => placeChar acc a.1 a.2) B

/-- The twelve FEN piece letters. -/
def fenPieceChars : List Char :=
  ['P', 'p', 'N', 'n', 'B', 'b', 'R', 'r', 'Q', 'q', 'K', 'k']

/-- The en-passant field is -1 or an on-board square (holds for every
position this development builds by replay). -/
def EpInv (b : Board) : Prop :=
  b.enPassant = -1 ∨ (0 ≤ b.enPassant ∧ b.enPassant < 64)

/-- The castling string only holds the four FEN castling letters, each
at most once (holds for every position built by replay from the initial
position). -/
def CastInv (b : Board) : Prop :=
  (∀ c ∈ b.castling, c = 'K' ∨ c = 'Q' ∨ c = 'k' ∨ c = 'q') ∧ b.castling.Nodup

/-- An empty board whose castling token was imported from a FEN that
spelled the white king-side right twice ("KK"). -/
def emptyKK : Board :=
  { pawns := (0, 0), knights := (0, 0), bishops := (0, 0), rooks := (0, 0),
    queens := (0, 0), kings := (0, 0), sideToMove := false,
    castling := ['K', 'K'], enPassant := -1, halfmove := 0, fullmove := 1 }

/-- An empty board whose castling token was imported from a FEN that
spelled the white king-side right once ("K"). -/
def emptyK : Board :=
  { pawns := (0, 0), knights := (0, 0), bishops := (0, 0), rooks := (0, 0),
    queens := (0, 0), kings := (0, 0), sideToMove := false,
    castling := ['K'], enPassant := -1, halfmove := 0, fullmove := 1 }

/-!
Theorems.  Each claim of the specification review is settled by exactly
one named theorem below; shared helper lemmas precede them.
-/

/-- Claim C1: the specification requires a non-castle move whose origin
holds the moving side's king to clear both of that side's castling
rights.  The code does not: `makeMove` tests `fromBB & this.kings[side]`
only after step 4 has already moved the king's bit off the origin, so
the test never fires for a king move.  Concretely, after 1. e4 e5 the
white king stands on e1 (square 4) with white to move; applying the
non-castle descriptor e1-e2 (4 to 12) leaves the castling rights at
KQkq, where the claim requires kq. -/
theorem c1_king_move_keeps_castling_rights :
    ((makeMove (makeMove initialBoard ⟨12, 28, none, none, false⟩)
        ⟨52, 36, none, none, false⟩).sideToMove = false) ∧
    (sel (makeMove (makeMove initialBoard ⟨12, 28, none, none, false⟩)
        ⟨52, 36, none, none, false⟩).kings false &&& bit 4 ≠ 0) ∧
    (makeMove (makeMove (makeMove initialBoard ⟨12, 28, none, none, false⟩)
        ⟨52, 36, none, none, false⟩) ⟨4, 12, none, none, false⟩).castling =
      ['K', 'Q', 'k', 'q'] := by
  decide

/-- Claim C2: the specification requires every applied move that is not
a two-square pawn advance — a castle included — to clear the en-passant
square.  The castle branch of `makeMove` returns without touching
`enPassant`, so after 1. e4 e5 2. Nf3 Nc6 3. Be2 a5 4. O-O (black's a5
set the en-passant square to a6 = 40; white's castle is not a pawn
advance) the en-passant square is still 40 where the claim requires it
cleared. -/
theorem c2_castle_keeps_en_passant :
    (([⟨12, 28, none, none, false⟩, ⟨52, 36, none, none, false⟩,
       ⟨6, 21, none, none, false⟩, ⟨57, 42, none, none, false⟩,
       ⟨5, 12, none, none, false⟩, ⟨48, 32, none, none, false⟩] :
        List Move).foldl makeMove initialBoard).enPassant = 40 ∧
    (([⟨12, 28, none, none, false⟩, ⟨52, 36, none, none, false⟩,
       ⟨6, 21, none, none, false⟩, ⟨57, 42, none, none, false⟩,
       ⟨5, 12, none, none, false⟩, ⟨48, 32, none, none, false⟩,
       ⟨4, 6, none, some 'K', false⟩] :
        List Move).foldl makeMove initialBoard).enPassant = 40 := by
  decide

/-- Claim C4: the specification (and the repository's own test file,
which replays "Bb5+" and "Qxf7#" through makeMoveSAN) requires trailing
check/checkmate annotation characters to be tolerated and ignored.  The
parser's destination regex is anchored at the end of the string, so the
annotated text fails to parse at all: after 1. e4 c5 2. Nf3 d6 the SAN
"Bb5" resolves (f1 to b5) but "Bb5+" resolves to nothing. -/
theorem c4_trailing_check_annotation_rejected :
    resolveSAN ((["e4", "c5", "Nf3", "d6"].map String.toList).foldl
        makeMoveSAN initialBoard) ('B' :: 'b' :: '5' :: '+' :: []) = none ∧
    resolveSAN ((["e4", "c5", "Nf3", "d6"].map String.toList).foldl
        makeMoveSAN initialBoard) ('B' :: 'b' :: '5' :: []) =
      some ⟨5, 33, none, none, false⟩ := by
  decide

theorem finishMove_halfmove (b : Board) : (finishMove b).halfmove = b.halfmove := by
  simp only [finishMove]; split <;> rfl

theorem castleStep_halfmove (b : Board) (m : Move) (c : Char) :
    (castleStep b m c).halfmove = b.halfmove := by
  simp only [castleStep]; rw [finishMove_halfmove]

theorem relocate_halfmove (b : Board) (side : Side) (fromBB toBB : Nat) :
    (relocate b side fromBB toBB).1.halfmove = b.halfmove := by
  simp only [relocate]; split_ifs <;> rfl

theorem promote_halfmove (b : Board) (side : Side) (toBB : Nat) (pr : Option Char) :
    (promote b side toBB pr).halfmove = b.halfmove := by
  cases pr with
  | none => rfl
  | some pc => simp only [promote]; split_ifs <;> rfl

theorem epUpdate_halfmove (b : Board) (m : Move) (mp : Bool) :
    (epUpdate b m mp).halfmove = b.halfmove := by
  simp only [epUpdate]; split <;> rfl

theorem kingRights_halfmove (b : Board) (side : Side) (fromBB : Nat) :
    (kingRights b side fromBB).halfmove = b.halfmove := by
  simp only [kingRights]; split <;> rfl

theorem rookRights_halfmove (b : Board) (m : Move) (mr : Bool) :
    (rookRights b m mr).halfmove = b.halfmove := by
  simp only [rookRights]; split <;> rfl

/-- Claim C9: the move applicator never modifies the halfmove clock —
for every position and every move descriptor (castle, capture, pawn
move, promotion or otherwise), `makeMove` leaves the `halfmove` field
exactly as it was; only `reset` and FEN import write it. -/
theorem c9_makeMove_preserves_halfmove (b : Board) (m : Move) :
    (makeMove b m).halfmove = b.halfmove := by
  simp only [makeMove]
  cases m.castle with
  | some c => exact castleStep_halfmove b m c
  | none =>
    dsimp only
    rw [finishMove_halfmove, rookRights_halfmove, kingRights_halfmove,
      epUpdate_halfmove, promote_halfmove, relocate_halfmove]
    simp only [clearEnemyAt]
    split_ifs <;> rfl

theorem sel_updSel_same (p : Nat × Nat) (s : Side) (v : Nat) : sel (updSel p s v) s = v := by
  cases s <;> simp [sel, updSel]

theorem bit_eq_two_pow (s : Nat) : bit s = 2 ^ s := by
  simp [bit, Nat.shiftLeft_eq]

theorem testBit_bit_self (s : Nat) : (bit s).testBit s = true := by
  rw [bit_eq_two_pow]
  exact Nat.testBit_two_pow_self

theorem andNot_testBit (a b i : Nat) :
    (andNot a b).testBit i = (a.testBit i && !(b.testBit i)) := by
  simp only [andNot, Nat.testBit_land, Nat.testBit_xor]
  cases a.testBit i <;> cases b.testBit i <;> rfl

theorem finishMove_pawns (b : Board) : (finishMove b).pawns = b.pawns := by
  simp only [finishMove]; split <;> rfl

theorem finishMove_knights (b : Board) : (finishMove b).knights = b.knights := by
  simp only [finishMove]; split <;> rfl

theorem epUpdate_pawns (b : Board) (m : Move) (mp : Bool) :
    (epUpdate b m mp).pawns = b.pawns := by
  simp only [epUpdate]; split <;> rfl

theorem epUpdate_knights (b : Board) (m : Move) (mp : Bool) :
    (epUpdate b m mp).knights = b.knights := by
  simp only [epUpdate]; split <;> rfl

theorem kingRights_pawns (b : Board) (side : Side) (fromBB : Nat) :
    (kingRights b side fromBB).pawns = b.pawns := by
  simp only [kingRights]; split <;> rfl

theorem kingRights_knights (b : Board) (side : Side) (fromBB : Nat) :
    (kingRights b side fromBB).knights = b.knights := by
  simp only [kingRights]; split <;> rfl

theorem rookRights_pawns (b : Board) (m : Move) (mr : Bool) :
    (rookRights b m mr).pawns = b.pawns := by
  simp only [rookRights]; split <;> rfl

theorem rookRights_knights (b : Board) (m : Move) (mr : Bool) :
    (rookRights b m mr).knights = b.knights := by
  simp only [rookRights]; split <;> rfl

theorem promote_pawns_sel (b : Board) (side : Side) (toBB : Nat) (c : Char) :
    sel (promote b side toBB (some c)).pawns side = andNot (sel b.pawns side) toBB := by
  simp only [promote]; split_ifs <;> simp [sel_updSel_same]

theorem promote_knights_sel (b : Board) (side : Side) (toBB : Nat) (c : Char)
    (hq : c ≠ 'q') (hr : c ≠ 'r') (hb : c ≠ 'b') :
    sel (promote b side toBB (some c)).knights side = sel b.knights side ||| toBB := by
  simp only [promote]
  split_ifs <;> first
    | exact absurd ‹c = 'q'› hq
    | exact absurd ‹c = 'r'› hr
    | exact absurd ‹c = 'b'› hb
    | simp [sel_updSel_same]

/-- Claim C10 (counterexample to the unrestricted claim): a descriptor
whose promotion field is an unrecognized letter but which also carries a
castle marker never reaches the promotion step — `makeMove` returns
from the castle branch first.  With the white queen-side castle
descriptor carrying promotion letter Q, the knight set is untouched and
no knight appears on the destination square c1 (= 2). -/
theorem c10_castle_descriptor_skips_promotion :
    (makeMove initialBoard ⟨4, 2, some 'Q', some 'Q', false⟩).knights =
      initialBoard.knights ∧
    (sel (makeMove initialBoard ⟨4, 2, some 'Q', some 'Q', false⟩).knights
      false).testBit 2 = false := by
  decide

/-- Claim C10 (amended): for every NON-CASTLE move descriptor whose
promotion field is present but not one of the lowercase letters q, r, b
— the uppercase letter Q included — `makeMove` removes the moving
side's pawn bit at the destination and sets the moving side's knight
bit there. -/
theorem c10_unrecognized_promotion_gives_knight (b : Board) (m : Move) (c : Char)
    (hcastle : m.castle = none) (hpromo : m.promotion = some c)
    (hq : c ≠ 'q') (hr : c ≠ 'r') (hb : c ≠ 'b') :
    (sel (makeMove b m).pawns b.sideToMove).testBit m.toSq = false ∧
    (sel (makeMove b m).knights b.sideToMove).testBit m.toSq = true := by
  simp only [makeMove, hcastle, hpromo]
  dsimp only
  rw [finishMove_pawns, finishMove_knights, rookRights_pawns, rookRights_knights,
    kingRights_pawns, kingRights_knights, epUpdate_pawns, epUpdate_knights,
    promote_pawns_sel, promote_knights_sel _ _ _ _ hq hr hb]
  constructor
  · rw [andNot_testBit, testBit_bit_self]
    simp
  · rw [Nat.testBit_lor, testBit_bit_self]
    simp

/-- Witness for the amended C10 at a concrete input: white "promotes"
with the uppercase letter Q on e8 (descriptor e7-e8, promotion 'Q');
the pawn bit disappears from e8 and a knight bit appears there. -/
theorem c10_unrecognized_promotion_gives_knight_witness :
    (sel (makeMove initialBoard ⟨52, 60, some 'Q', none, false⟩).pawns
      initialBoard.sideToMove).testBit 60 = false ∧
    (sel (makeMove initialBoard ⟨52, 60, some 'Q', none, false⟩).knights
      initialBoard.sideToMove).testBit 60 = true :=
  c10_unrecognized_promotion_gives_knight initialBoard ⟨52, 60, some 'Q', none, false⟩ 'Q'
    rfl rfl (by decide) (by decide) (by decide)

theorem findSingle_no_hits (bb : Nat) : ∀ (l : List Nat) (found : Int),
    (∀ sq ∈ l, bb &&& bit sq = 0) → findSingle bb l found = found := by
  intro l
  induction l with
  | nil => intro found _; rfl
  | cons sq rest ih =>
    intro found h
    simp only [findSingle]
    rw [if_neg (by simpa using h sq (by simp))]
    exact ih found (fun x hx => h x (by simp [hx]))

theorem findSingle_saturated (bb : Nat) : ∀ (l : List Nat) (found : Int), 0 ≤ found →
    (∃ sq ∈ l, bb &&& bit sq ≠ 0) → findSingle bb l found = -1 := by
  intro l
  induction l with
  | nil => intro found _ h; simp at h
  | cons sq rest ih =>
    intro found hf h
    simp only [findSingle]
    by_cases hhit : bb &&& bit sq ≠ 0
    · rw [if_pos hhit, if_pos hf]
    · rw [if_neg hhit]
      rcases h with ⟨x, hx, hxne⟩
      rcases List.mem_cons.mp hx with h1 | h1
      · exact absurd (h1 ▸ hxne) hhit
      · exact ih found hf ⟨x, h1, hxne⟩

theorem findSingle_two (bb : Nat) : ∀ (l : List Nat) (found : Int), found < 0 →
    2 ≤ (l.filter fun sq => decide (bb &&& bit sq ≠ 0)).length →
    findSingle bb l found = -1 := by
  intro l
  induction l with
  | nil => intro found _ h; simp at h
  | cons sq rest ih =>
    intro found hf h
    simp only [findSingle]
    by_cases hhit : bb &&& bit sq ≠ 0
    · rw [if_pos hhit, if_neg (by omega)]
      rw [List.filter_cons, if_pos (by simpa using hhit), List.length_cons] at h
      have hrest1 : 0 < (rest.filter fun s => decide (bb &&& bit s ≠ 0)).length := by
        omega
      obtain ⟨x, hx⟩ := List.exists_mem_of_ne_nil _ (List.length_pos.mp hrest1)
      obtain ⟨hx1, hx2⟩ := List.mem_filter.mp hx
      exact findSingle_saturated bb rest sq (Int.natCast_nonneg sq)
        ⟨x, hx1, by simpa using hx2⟩
    · rw [if_neg hhit]
      apply ih found hf
      rwa [List.filter_cons, if_neg (by simpa using hhit)] at h

theorem countHits_fst (bb : Nat) : ∀ (l : List Nat) (c : Nat) (f : Int), c < 2 →
    (countHits bb l c f).1 =
      min (c + (l.filter fun sq => decide (bb &&& bit sq ≠ 0)).length) 2 := by
  intro l
  induction l with
  | nil => intro c f hc; simp [countHits]; omega
  | cons sq rest ih =>
    intro c f hc
    simp only [countHits]
    by_cases hhit : bb &&& bit sq ≠ 0
    · rw [if_pos hhit]
      by_cases hc1 : 1 < c + 1
      · rw [if_pos hc1, List.filter_cons, if_pos (by simpa using hhit), List.length_cons]
        dsimp only
        omega
      · rw [if_neg hc1, ih (c + 1) sq (by omega), List.filter_cons,
          if_pos (by simpa using hhit), List.length_cons]
        omega
    · rw [if_neg hhit, List.filter_cons, if_neg (by simpa using hhit)]
      exact ih c f hc

theorem filterDisamb_fail (candidates : Nat) (df dr : Option Char)
    (h : hitCount (disambMask candidates df dr) ≠ 1) :
    filterDisamb candidates df dr = -1 := by
  unfold filterDisamb
  rcases Nat.lt_or_ge (hitCount (disambMask candidates df dr)) 1 with h0 | h2
  · apply findSingle_no_hits
    intro sq hsq
    by_contra hne
    have hmem : sq ∈ (List.range 64).filter
        (fun s => decide (disambMask candidates df dr &&& bit s ≠ 0)) :=
      List.mem_filter.mpr ⟨hsq, by simpa using hne⟩
    have : 0 < hitCount (disambMask candidates df dr) :=
      List.length_pos.mpr (List.ne_nil_of_mem hmem)
    omega
  · exact findSingle_two _ _ _ (by norm_num) (by unfold hitCount at h h2; omega)

/-- Claim C3 (counterexample to the claim as stated): at the initial
position the SAN "Nac3" carries the file disambiguation a; the only
knight that reaches c3 stands on b1 (file b), so after intersecting
with the a-file mask ZERO candidates remain — yet `resolveSAN` does not
fail: its fallback re-examines the unfiltered candidate set, finds the
single knight on b1, and returns the move b1-c3. -/
theorem c3_disamb_empty_still_resolves :
    parseSAN ('N' :: 'a' :: 'c' :: '3' :: []) =
      some ⟨some 'N', 18, some 'a', none, none, none⟩ ∧
    hitCount (disambMask
      (candidatesFor initialBoard ⟨some 'N', 18, some 'a', none, none, none⟩)
      (some 'a') none) = 0 ∧
    resolveSAN initialBoard ('N' :: 'a' :: 'c' :: '3' :: []) =
      some ⟨1, 18, none, none, false⟩ := by
  decide

/-- Claim C3 (amended): with a file and/or rank disambiguation present,
resolution fails with the no-result signal (null) when the filtered
candidate set does not hold exactly one square AND the unfiltered
candidate set does not hold exactly one square either.  (When the
filter leaves zero or several squares but the unfiltered set is a
singleton, the resolver's fallback returns that square instead of
failing.) -/
theorem c3_disamb_not_single_fails (b : Board) (san : List Char) (p : PRes)
    (hp : parseSAN san = some p) (hc : p.castle = none)
    (_hd : p.disambFile.isSome ∨ p.disambRank.isSome)
    (h1 : hitCount (disambMask (candidatesFor b p) p.disambFile p.disambRank) ≠ 1)
    (h2 : hitCount (candidatesFor b p) ≠ 1) :
    resolveSAN b san = none := by
  have h0 : filterDisamb (candidatesFor b p) p.disambFile p.disambRank = -1 :=
    filterDisamb_fail _ _ _ h1
  have hfrom : resolveFrom b p < 0 := by
    simp only [resolveFrom, h0]
    by_cases hcand : candidatesFor b p = 0
    · simp [hcand]
    · rw [if_pos (show (-1 : Int) < 0 ∧ candidatesFor b p ≠ 0 from ⟨by norm_num, hcand⟩)]
      have hch : ((countHits (candidatesFor b p) (List.range 64) 0 (-1)).1 ≠ 1) := by
        rw [countHits_fst _ _ _ _ (by norm_num)]
        unfold hitCount at h2
        omega
      rw [if_pos hch]
      norm_num
  simp only [resolveSAN, hp, hc]
  rw [if_pos hfrom]

/-- Witness for the amended C3 at a concrete input: at the initial
position "Nae5" parses with file disambiguation a, no knight reaches
e5 at all (zero candidates filtered and unfiltered), and resolution
returns null. -/
theorem c3_disamb_not_single_fails_witness :
    resolveSAN initialBoard ('N' :: 'a' :: 'e' :: '5' :: []) = none :=
  c3_disamb_not_single_fails initialBoard ('N' :: 'a' :: 'e' :: '5' :: [])
    ⟨some 'N', 36, some 'a', none, none, none⟩
    (by decide) rfl (by decide) (by decide) (by decide)

theorem zobSeedAfter_add (m n s : Nat) :
    zobSeedAfter (m + n) s = zobSeedAfter n (zobSeedAfter m s) := by
  unfold zobSeedAfter
  rw [List.range_add, List.foldl_append, List.foldl_map]

theorem zobSeed400 : zobSeedAfter 400 0x5eed = 668826765 := by decide

theorem zobSeed769 : zobSeedAfter 769 0x5eed = 3744665815 := by
  have h : (769 : Nat) = 400 + 369 := by omega
  rw [h, zobSeedAfter_add, zobSeed400]
  decide

theorem zobristCastle0 : ZOBRIST_CASTLE 0 = 10733284154370998467 := by
  have h : ZOBRIST_CASTLE 0 = (random64 (zobSeedAfter 769 0x5eed)).1 := by
    show zobristValues.getD 769 0 = _
    unfold zobristValues
    rw [List.getD_eq_getElem?_getD, List.getElem?_map]
    simp [List.getElem?_range (by omega : (769 : Nat) < 781)]
  rw [h, zobSeed769]
  decide

theorem castleFold_perm (l1 l2 : List Char) (hc : l1.Perm l2) (k : Nat) :
    l1.foldl (fun k c => k ^^^ ZOBRIST_CASTLE (castlingIndex c)) k =
    l2.foldl (fun k c => k ^^^ ZOBRIST_CASTLE (castlingIndex c)) k := by
  apply hc.foldl_eq'
  intro x _ y _ z
  simp only [Nat.xor_assoc]
  rw [Nat.xor_comm (ZOBRIST_CASTLE (castlingIndex x)) (ZOBRIST_CASTLE (castlingIndex y))]

/-- Claim C6 (counterexample to the claim as stated): the Zobrist
castling contribution is one XOR per stored castling character, so it
is sensitive to the multiset of letters, not just the set.  FEN import
copies the castling token verbatim; importing "KK" and "K" (legal per
the importer, which validates nothing) gives two positions with equal
piece placement, side, en-passant square and equal castling-rights
SETS, whose keys differ: the doubled K cancels itself out, the single K
contributes the (non-zero) castling value. -/
theorem c6_counterexample_doubled_castling_letter :
    (loadFromFEN initialBoard ('8' :: '/' :: '8' :: '/' :: '8' :: '/' :: '8' :: '/' :: '8' :: '/' :: '8' :: '/' :: '8' :: '/' :: '8' :: ' ' :: 'w' :: ' ' :: 'K' :: 'K' :: ' ' :: '-' :: ' ' :: '0' :: ' ' :: '1' :: []) = emptyKK) ∧
    (loadFromFEN initialBoard ('8' :: '/' :: '8' :: '/' :: '8' :: '/' :: '8' :: '/' :: '8' :: '/' :: '8' :: '/' :: '8' :: '/' :: '8' :: ' ' :: 'w' :: ' ' :: 'K' :: ' ' :: '-' :: ' ' :: '0' :: ' ' :: '1' :: []) = emptyK) ∧
    emptyKK.pawns = emptyK.pawns ∧ emptyKK.knights = emptyK.knights ∧
    emptyKK.bishops = emptyK.bishops ∧ emptyKK.rooks = emptyK.rooks ∧
    emptyKK.queens = emptyK.queens ∧ emptyKK.kings = emptyK.kings ∧
    emptyKK.sideToMove = emptyK.sideToMove ∧ emptyKK.enPassant = emptyK.enPassant ∧
    emptyKK.castling.toFinset = emptyK.castling.toFinset ∧
    getZobristKey emptyKK ≠ getZobristKey emptyK := by
  refine ⟨by decide, by decide, rfl, rfl, rfl, rfl, rfl, rfl, rfl, rfl, by decide, ?_⟩
  have k1 : getZobristKey emptyKK = 0 := by
    simp only [getZobristKey]
    rw [show (List.range 64).foldl (fun k sq => k ^^^ zobPieceContrib emptyKK sq) 0 = 0 from by decide]
    simp [emptyKK, castlingIndex, Nat.xor_self]
  have k2 : getZobristKey emptyK = ZOBRIST_CASTLE 0 := by
    simp only [getZobristKey]
    rw [show (List.range 64).foldl (fun k sq => k ^^^ zobPieceContrib emptyK sq) 0 = 0 from by decide]
    simp [emptyK, castlingIndex]
  rw [k1, k2, zobristCastle0]
  decide

/-- Claim C6 (amended): two positions with identical piece placement
(all twelve sets), identical side to move, identical en-passant square,
and castling-rights strings that are permutations of each other — equal
as MULTISETS of letters, the order the rights are stored in being
irrelevant — always hash identically, however each was built. -/
theorem c6_equal_positions_hash_equal (b1 b2 : Board)
    (hp : b1.pawns = b2.pawns) (hn : b1.knights = b2.knights)
    (hbi : b1.bishops = b2.bishops) (hr : b1.rooks = b2.rooks)
    (hq : b1.queens = b2.queens) (hk : b1.kings = b2.kings)
    (hs : b1.sideToMove = b2.sideToMove) (he : b1.enPassant = b2.enPassant)
    (hc : b1.castling.Perm b2.castling) :
    getZobristKey b1 = getZobristKey b2 := by
  have hcontrib : zobPieceContrib b1 = zobPieceContrib b2 := by
    funext sq
    simp only [zobPieceContrib, hp, hn, hbi, hr, hq, hk]
  simp only [getZobristKey]
  rw [hcontrib, hs, he, castleFold_perm _ _ hc]

/-- Witness for the amended C6 at a concrete input: the same position
stored once with castling string "Kq" and once with "qK" hashes
identically. -/
theorem c6_equal_positions_hash_equal_witness :
    getZobristKey { initialBoard with castling := ['K', 'q'] } =
    getZobristKey { initialBoard with castling := ['q', 'K'] } :=
  c6_equal_positions_hash_equal _ _ rfl rfl rfl rfl rfl rfl rfl rfl (by decide)

theorem squareToIndex_bounds (fc rc : Char) (hf : isFileChar fc = true)
    (hr : isRankChar rc = true) : 0 ≤ squareToIndex fc rc ∧ squareToIndex fc rc < 64 := by
  have hf' : 97 ≤ fc.toNat ∧ fc.toNat ≤ 104 := by
    simpa [isFileChar, Char.le_def] using hf
  have hr' : 49 ≤ rc.toNat ∧ rc.toNat ≤ 56 := by
    simpa [isRankChar, Char.le_def] using hr
  unfold squareToIndex
  omega

theorem parseSAN_bounds (san : List Char) (p : PRes) (hp : parseSAN san = some p)
    (hc : p.castle = none) : 0 ≤ p.targetIndex ∧ p.targetIndex < 64 := by
  simp only [parseSAN] at hp
  split at hp
  · cases hp; simp at hc
  · split at hp
    · cases hp; simp at hc
    · split at hp
      next heq => simp at hp
      next mlen promo heq =>
        split at heq
        next hsq =>
          obtain ⟨h2, hf, hr⟩ := hsq
          cases heq
          cases hp
          refine squareToIndex_bounds _ _ hf ?_
          rw [show (jsTrim san).length - 2 + 1 = (jsTrim san).length - 1 from by omega]
          exact hr
        next =>
          split at heq
          next hsq =>
            obtain ⟨h4, he, hpr, hf, hr⟩ := hsq
            cases heq
            cases hp
            refine squareToIndex_bounds _ _ hf ?_
            rw [show (jsTrim san).length - 4 + 1 = (jsTrim san).length - 3 from by omega]
            exact hr
          next => simp at heq

theorem findSingle_lt (bb : Nat) : ∀ (l : List Nat) (found : Int), found < 64 →
    (∀ sq ∈ l, (sq : Int) < 64) → findSingle bb l found < 64 := by
  intro l
  induction l with
  | nil => intro found hf _; exact hf
  | cons sq rest ih =>
    intro found hf h
    simp only [findSingle]
    split_ifs with h1 h2
    · norm_num
    · exact ih sq (h sq (by simp)) (fun x hx => h x (by simp [hx]))
    · exact ih found hf (fun x hx => h x (by simp [hx]))

theorem countHits_snd_lt (bb : Nat) : ∀ (l : List Nat) (c : Nat) (f : Int), f < 64 →
    (∀ sq ∈ l, (sq : Int) < 64) → (countHits bb l c f).2 < 64 := by
  intro l
  induction l with
  | nil => intro c f hf _; exact hf
  | cons sq rest ih =>
    intro c f hf h
    simp only [countHits]
    split_ifs with h1 h2
    · exact h sq (by simp)
    · exact ih (c + 1) sq (h sq (by simp)) (fun x hx => h x (by simp [hx]))
    · exact ih c f hf (fun x hx => h x (by simp [hx]))

theorem range64_cast_lt : ∀ sq ∈ List.range 64, (sq : Int) < 64 := by
  intro sq hsq
  have := List.mem_range.mp hsq
  omega

theorem resolveFrom_lt (b : Board) (p : PRes) : resolveFrom b p < 64 := by
  have hfd : filterDisamb (candidatesFor b p) p.disambFile p.disambRank < 64 := by
    unfold filterDisamb
    exact findSingle_lt _ _ _ (by norm_num) range64_cast_lt
  simp only [resolveFrom]
  split_ifs with h1 h2
  · norm_num
  · exact countHits_snd_lt _ _ _ _ hfd range64_cast_lt
  · exact hfd

theorem resolveSAN_some_bounds (b : Board) (san : List Char) (m : Move)
    (h : resolveSAN b san = some m) : m.fromSq < 64 ∧ m.toSq < 64 := by
  simp only [resolveSAN] at h
  split at h
  · simp at h
  next p heq =>
    split at h
    next c hcast =>
      cases h
      constructor <;> split_ifs <;> norm_num
    next hcast =>
      obtain ⟨ht0, ht1⟩ := parseSAN_bounds san p heq hcast
      have hlt := resolveFrom_lt b p
      split at h
      · simp at h
      next hge =>
        cases h
        constructor
        · dsimp only
          omega
        · dsimp only
          omega

/-- Claim C7: resolveSAN is total: for every position and every input
text it returns either a move descriptor or the explicit no-result
signal (modelled as `none`), and in the former case the descriptor's
origin and destination squares lie on the board — no exception, fatal
fault or out-of-board access occurs, even for malformed text or
destination squares whose derived pawn-origin index falls off the
board (the negative-shift case is absorbed by `jsBit`). -/
theorem c7_resolveSAN_total (b : Board) (san : List Char) :
    resolveSAN b san = none ∨
    ∃ m, resolveSAN b san = some m ∧ m.fromSq < 64 ∧ m.toSq < 64 := by
  cases h : resolveSAN b san with
  | none => exact Or.inl rfl
  | some m => exact Or.inr ⟨m, rfl, resolveSAN_some_bounds b san m h⟩

theorem finishMove_enPassant (b : Board) : (finishMove b).enPassant = b.enPassant := by
  simp only [finishMove]; split <;> rfl

theorem finishMove_castling (b : Board) : (finishMove b).castling = b.castling := by
  simp only [finishMove]; split <;> rfl

theorem castleStep_enPassant (b : Board) (m : Move) (c : Char) :
    (castleStep b m c).enPassant = b.enPassant := by
  simp only [castleStep]; rw [finishMove_enPassant]

theorem castleStep_castling (b : Board) (m : Move) (c : Char) :
    (castleStep b m c).castling = stripSideCastling b.castling b.sideToMove := by
  simp only [castleStep]; rw [finishMove_castling]

theorem kingRights_enPassant (b : Board) (side : Side) (fromBB : Nat) :
    (kingRights b side fromBB).enPassant = b.enPassant := by
  simp only [kingRights]; split <;> rfl

theorem rookRights_enPassant (b : Board) (m : Move) (mr : Bool) :
    (rookRights b m mr).enPassant = b.enPassant := by
  simp only [rookRights]; split <;> rfl

theorem clearEnemyAt_castling (b : Board) (enemy : Side) (toBB : Nat) :
    (clearEnemyAt b enemy toBB).castling = b.castling := rfl

theorem relocate_castling (b : Board) (side : Side) (fromBB toBB : Nat) :
    (relocate b side fromBB toBB).1.castling = b.castling := by
  simp only [relocate]; split_ifs <;> rfl

theorem promote_castling (b : Board) (side : Side) (toBB : Nat) (pr : Option Char) :
    (promote b side toBB pr).castling = b.castling := by
  cases pr with
  | none => rfl
  | some pc => simp only [promote]; split_ifs <;> rfl

theorem epUpdate_castling (b : Board) (m : Move) (mp : Bool) :
    (epUpdate b m mp).castling = b.castling := by
  simp only [epUpdate]; split <;> rfl

theorem epUpdate_enPassant_cases (b : Board) (m : Move) (mp : Bool) :
    (epUpdate b m mp).enPassant = -1 ∨
    (epUpdate b m mp).enPassant = ((m.fromSq + m.toSq) / 2 : Nat) := by
  simp only [epUpdate]
  split
  · exact Or.inr rfl
  · exact Or.inl rfl

theorem stripSideCastling_sublist (l : List Char) (s : Side) :
    List.Sublist (stripSideCastling l s) l := List.filter_sublist l

theorem removeFirst_sublist (ch : Char) :
    ∀ l : List Char, List.Sublist (removeFirst ch l) l := by
  intro l
  induction l with
  | nil => exact List.Sublist.refl _
  | cons c rest ih =>
    simp only [removeFirst]
    split
    · exact List.sublist_cons_self c rest
    · exact List.Sublist.cons₂ c ih

theorem kingRights_castling_sublist (b : Board) (side : Side) (fromBB : Nat) :
    List.Sublist (kingRights b side fromBB).castling b.castling := by
  simp only [kingRights]
  split
  · exact stripSideCastling_sublist _ _
  · exact List.Sublist.refl _

theorem ifRemove_sublist (cond : Prop) [Decidable cond] (ch : Char) (l : List Char) :
    List.Sublist (if cond then removeFirst ch l else l) l := by
  split
  · exact removeFirst_sublist _ _
  · exact List.Sublist.refl _

theorem rookRights_castling_sublist (b : Board) (m : Move) (mr : Bool) :
    List.Sublist (rookRights b m mr).castling b.castling := by
  simp only [rookRights]
  split
  · exact (ifRemove_sublist _ _ _).trans ((ifRemove_sublist _ _ _).trans
      ((ifRemove_sublist _ _ _).trans (ifRemove_sublist _ _ _)))
  · exact List.Sublist.refl _

theorem makeMove_castling_sublist (b : Board) (m : Move) :
    List.Sublist (makeMove b m).castling b.castling := by
  simp only [makeMove]
  cases m.castle with
  | some c =>
    rw [castleStep_castling]
    exact stripSideCastling_sublist _ _
  | none =>
    dsimp only
    rw [finishMove_castling]
    refine List.Sublist.trans (rookRights_castling_sublist _ _ _) ?_
    refine List.Sublist.trans (kingRights_castling_sublist _ _ _) ?_
    rw [epUpdate_castling, promote_castling, relocate_castling, clearEnemyAt_castling]
    split_ifs <;> exact List.Sublist.refl _

theorem makeMove_EpInv (b : Board) (m : Move) (hm : WFMove m) (hb : EpInv b) :
    EpInv (makeMove b m) := by
  obtain ⟨h1, h2⟩ := hm
  unfold EpInv at hb ⊢
  simp only [makeMove]
  cases m.castle with
  | some c => rw [castleStep_enPassant]; exact hb
  | none =>
    dsimp only
    rw [finishMove_enPassant, rookRights_enPassant, kingRights_enPassant]
    rcases epUpdate_enPassant_cases _ m _ with h | h
    · rw [h]; exact Or.inl rfl
    · rw [h]
      right
      refine ⟨Int.ofNat_nonneg _, ?_⟩
      exact_mod_cast (by omega : (m.fromSq + m.toSq) / 2 < 64)

theorem makeMove_CastInv (b : Board) (m : Move) (hb : CastInv b) :
    CastInv (makeMove b m) := by
  obtain ⟨hmem, hnd⟩ := hb
  have hs := makeMove_castling_sublist b m
  exact ⟨fun c hc => hmem c (hs.mem hc), hnd.sublist hs⟩

theorem reachable_inv (p : Board) (h : Reachable p) : EpInv p ∧ CastInv p := by
  obtain ⟨ms, hwf, rfl⟩ := h
  have main : ∀ (l : List Move) (b : Board), (∀ m ∈ l, WFMove m) →
      EpInv b ∧ CastInv b → EpInv (l.foldl makeMove b) ∧ CastInv (l.foldl makeMove b) := by
    intro l
    induction l with
    | nil => intro b _ hb; exact hb
    | cons m rest ih =>
      intro b hl hb
      simp only [List.foldl_cons]
      exact ih (makeMove b m) (fun x hx => hl x (by simp [hx]))
        ⟨makeMove_EpInv b m (hl m (by simp)) hb.1, makeMove_CastInv b m hb.2⟩
  exact main ms initialBoard hwf ⟨Or.inl rfl, by constructor <;> decide⟩

theorem digitChar_lt_mem :
    ∀ k, k < 10 → Nat.digitChar k ∈ ['0','1','2','3','4','5','6','7','8','9'] := by decide

theorem toDigitsCore_chars : ∀ (fuel n : Nat) (ds : List Char),
    (∀ c ∈ ds, c ∈ ['0','1','2','3','4','5','6','7','8','9']) →
    ∀ c ∈ Nat.toDigitsCore 10 fuel n ds, c ∈ ['0','1','2','3','4','5','6','7','8','9'] := by
  intro fuel
  induction fuel with
  | zero => intro n ds hds c hc; exact hds c hc
  | succ f ih =>
    intro n ds hds c hc
    have hd : Nat.digitChar (n % 10) ∈ ['0','1','2','3','4','5','6','7','8','9'] :=
      digitChar_lt_mem _ (Nat.mod_lt _ (by norm_num))
    simp only [Nat.toDigitsCore] at hc
    split at hc
    · rcases List.mem_cons.mp hc with rfl | h
      · exact hd
      · exact hds c h
    · refine ih _ _ ?_ c hc
      intro x hx
      rcases List.mem_cons.mp hx with rfl | h
      · exact hd
      · exact hds x h

theorem toDigits_chars (n : Nat) :
    ∀ c ∈ Nat.toDigits 10 n, c ∈ ['0','1','2','3','4','5','6','7','8','9'] :=
  toDigitsCore_chars _ _ _ (by simp)

theorem toDigitsCore_ne_nil_acc : ∀ (fuel n : Nat) (ds : List Char), ds ≠ [] →
    Nat.toDigitsCore 10 fuel n ds ≠ [] := by
  intro fuel
  induction fuel with
  | zero => intro n ds h; simpa [Nat.toDigitsCore] using h
  | succ f ih =>
    intro n ds h
    simp only [Nat.toDigitsCore]
    split
    · simp
    · exact ih _ _ (by simp)

theorem toDigits_ne_nil (n : Nat) : Nat.toDigits 10 n ≠ [] := by
  unfold Nat.toDigits
  simp only [Nat.toDigitsCore]
  split
  · simp
  · exact toDigitsCore_ne_nil_acc _ _ _ (by simp)

theorem ite_some_mem {α : Type} (P : Prop) [Decidable P] (x : α) (o : Option α)
    (L : List α) (hx : x ∈ L) (ho : ∀ y, o = some y → y ∈ L) :
    ∀ y, (if P then some x else o) = some y → y ∈ L := by
  intro y hy
  split at hy
  · injection hy with hy; subst hy; exact hx
  · exact ho y hy

theorem pieceCharAt_mem (b : Board) (sq : Nat) (c : Char)
    (h : pieceCharAt b sq = some c) : c ∈ fenPieceChars := by
  unfold pieceCharAt at h
  exact (ite_some_mem _ 'P' _ _ (by decide) <|
    ite_some_mem _ 'p' _ _ (by decide) <|
    ite_some_mem _ 'N' _ _ (by decide) <|
    ite_some_mem _ 'n' _ _ (by decide) <|
    ite_some_mem _ 'B' _ _ (by decide) <|
    ite_some_mem _ 'b' _ _ (by decide) <|
    ite_some_mem _ 'R' _ _ (by decide) <|
    ite_some_mem _ 'r' _ _ (by decide) <|
    ite_some_mem _ 'Q' _ _ (by decide) <|
    ite_some_mem _ 'q' _ _ (by decide) <|
    ite_some_mem _ 'K' _ _ (by decide) <|
    ite_some_mem _ 'k' _ _ (by decide) <|
    fun y hy => absurd hy (by simp)) c h

theorem encodeCells_chars (P : Char → Prop)
    (hd : ∀ k, 1 ≤ k → k ≤ 8 → P (digitChar k)) :
    ∀ (cells : List (Option Char)) (e : Nat), e + cells.length ≤ 8 →
      (∀ c, some c ∈ cells → P c) → ∀ x ∈ encodeCells cells e, P x := by
  intro cells
  induction cells with
  | nil =>
    intro e he _ x hx
    cases e with
    | zero => simp [encodeCells] at hx
    | succ e =>
      simp only [encodeCells, List.mem_singleton] at hx
      subst hx
      exact hd _ (by omega) (by simpa using he)
  | cons oc cs ih =>
    intro e he hc x hx
    cases oc with
    | none =>
      simp only [encodeCells] at hx
      exact ih (e + 1) (by simp at he ⊢; omega) (fun c h => hc c (by simp [h])) x hx
    | some c =>
      cases e with
      | zero =>
        simp only [encodeCells, List.mem_cons] at hx
        rcases hx with rfl | hx'
        · exact hc x (by simp)
        · exact ih 0 (by simp at he ⊢; omega) (fun d h => hc d (by simp [h])) x hx'
      | succ e =>
        simp only [encodeCells, List.mem_cons] at hx
        rcases hx with rfl | rfl | hx'
        · exact hd _ (by omega) (by simp at he; omega)
        · exact hc x (by simp)
        · exact ih 0 (by simp at he ⊢; omega) (fun d h => hc d (by simp [h])) x hx'

theorem encodeCells_ne_nil : ∀ (cells : List (Option Char)) (e : Nat),
    cells ≠ [] → encodeCells cells e ≠ [] := by
  intro cells
  induction cells with
  | nil => intro e h; exact absurd rfl h
  | cons oc cs ih =>
    intro e _
    cases oc with
    | none =>
      simp only [encodeCells]
      cases cs with
      | nil => cases e <;> simp [encodeCells]
      | cons d t => exact ih (e + 1) (by simp)
    | some c => cases e <;> simp [encodeCells]

theorem mem_intercalate_singleton (sep : Char) :
    ∀ (rs : List (List Char)) (x : Char), x ∈ List.intercalate [sep] rs →
      x = sep ∨ ∃ r ∈ rs, x ∈ r := by
  intro rs
  induction rs with
  | nil => intro x hx; simp [List.intercalate] at hx
  | cons a t ih =>
    intro x hx
    cases t with
    | nil =>
      simp only [List.intercalate, List.intersperse_single, List.flatten] at hx
      simp at hx
      exact Or.inr ⟨a, by simp, hx⟩
    | cons b t2 =>
      simp only [List.intercalate, List.intersperse_cons₂, List.flatten_cons] at hx
      rcases List.mem_append.mp hx with h | h
      · exact Or.inr ⟨a, by simp, h⟩
      · rcases List.mem_append.mp h with h2 | h2
        · exact Or.inl (by simpa using h2)
        · rcases ih x (by simpa [List.intercalate] using h2) with h3 | ⟨r, hr, hxr⟩
          · exact Or.inl h3
          · exact Or.inr ⟨r, by simp [hr], hxr⟩

theorem rankCells_length (b : Board) (r : Nat) : (rankCells b r).length = 8 := by
  simp [rankCells]

theorem encodedRank_chars (b : Board) (r : Nat) :
    ∀ x ∈ encodeCells (rankCells b r) 0,
      x ∈ ['1','2','3','4','5','6','7','8',
           'P','p','N','n','B','b','R','r','Q','q','K','k'] := by
  refine encodeCells_chars _ ?_ _ _ (by simp [rankCells_length]) ?_
  · intro k h1 h8
    interval_cases k <;> decide
  · intro c hc
    simp only [rankCells, List.mem_map] at hc
    obtain ⟨f, _, hf⟩ := hc
    have := pieceCharAt_mem b (r * 8 + f) c hf
    revert this
    have hsub : ∀ x ∈ fenPieceChars,
        x ∈ ['1','2','3','4','5','6','7','8',
             'P','p','N','n','B','b','R','r','Q','q','K','k'] := by decide
    exact hsub c

theorem fenPlacement_chars (b : Board) :
    ∀ x ∈ fenPlacement b,
      x ∈ ['/','1','2','3','4','5','6','7','8',
           'P','p','N','n','B','b','R','r','Q','q','K','k'] := by
  intro x hx
  rcases mem_intercalate_singleton '/' _ x hx with rfl | ⟨rk, hrk, hxr⟩
  · simp
  · simp only [List.mem_map] at hrk
    obtain ⟨r, _, hr⟩ := hrk
    subst hr
    have := encodedRank_chars b r x hxr
    simp only [List.mem_cons] at this ⊢
    tauto

theorem fenPlacement_ne_nil (b : Board) : fenPlacement b ≠ [] := by
  unfold fenPlacement
  have h8 : (List.range 8).reverse = [7, 6, 5, 4, 3, 2, 1, 0] := rfl
  rw [h8]
  simp only [List.map_cons, List.map_nil, List.intercalate, List.intersperse_cons₂,
    List.flatten_cons]
  simp

theorem jsTrim_eq_self (s : List Char) (c : Char) (t : List Char) (hs : s = c :: t)
    (hc : Char.isWhitespace c = false) (d : Char) (u : List Char) (hr : s.reverse = d :: u)
    (hd : Char.isWhitespace d = false) : jsTrim s = s := by
  unfold jsTrim
  rw [hs, List.dropWhile_cons, if_neg (by simp [hc]), ← hs, hr, List.dropWhile_cons,
    if_neg (by simp [hd]), ← hr, List.reverse_reverse]

theorem fenEp_chars (ep : Int) (h : ep = -1 ∨ (0 ≤ ep ∧ ep < 64)) :
    ∀ x ∈ fenEp ep, Char.isWhitespace x = false := by
  rcases h with rfl | ⟨h0, h1⟩
  · decide
  · interval_cases ep <;> decide

theorem fenEp_ne_nil (ep : Int) : fenEp ep ≠ [] := by
  unfold fenEp
  split
  · simp
  · simp

theorem append_head {α : Type} (l₁ l₂ : List α) (c : α) (t : List α) (h : l₁ = c :: t) :
    l₁ ++ l₂ = c :: (t ++ l₂) := by subst h; rfl

theorem toFEN_assoc (p : Board) :
    toFEN p = fenPlacement p ++ (' ' :: (if p.sideToMove = false then 'w' else 'b') :: ' ' ::
      ((if p.castling = [] then ['-'] else p.castling) ++ ' ' ::
        (fenEp p.enPassant ++ ' ' ::
          (Nat.toDigits 10 p.halfmove ++ ' ' :: Nat.toDigits 10 p.fullmove)))) := by
  simp [toFEN]

theorem toFEN_trim (p : Board) : jsTrim (toFEN p) = toFEN p := by
  obtain ⟨c, t, hct⟩ := List.exists_cons_of_ne_nil (fenPlacement_ne_nil p)
  have hnws : ∀ x ∈ ['/','1','2','3','4','5','6','7','8',
      'P','p','N','n','B','b','R','r','Q','q','K','k'], Char.isWhitespace x = false := by
    decide
  have hcws : Char.isWhitespace c = false :=
    hnws c (fenPlacement_chars p c (by rw [hct]; simp))
  have hhead : toFEN p = c :: (t ++ (' ' ::
      (if p.sideToMove = false then 'w' else 'b') :: ' ' ::
      ((if p.castling = [] then ['-'] else p.castling) ++ ' ' ::
        (fenEp p.enPassant ++ ' ' ::
          (Nat.toDigits 10 p.halfmove ++ ' ' :: Nat.toDigits 10 p.fullmove))))) := by
    rw [toFEN_assoc, append_head _ _ c t hct]
  have hlast : toFEN p =
      (fenPlacement p ++ [' ', if p.sideToMove = false then 'w' else 'b', ' '] ++
        (if p.castling = [] then ['-'] else p.castling) ++ [' '] ++ fenEp p.enPassant ++
        [' '] ++ Nat.toDigits 10 p.halfmove ++ [' ']) ++ Nat.toDigits 10 p.fullmove := by
    simp [toFEN]
  obtain ⟨d, u, hdu⟩ := List.exists_cons_of_ne_nil
    (show (Nat.toDigits 10 p.fullmove).reverse ≠ [] by
      simpa using toDigits_ne_nil p.fullmove)
  have hdmem : d ∈ Nat.toDigits 10 p.fullmove :=
    List.mem_reverse.mp (by rw [hdu]; simp)
  have hdws : Char.isWhitespace d = false := by
    have hdig : ∀ x ∈ ['0','1','2','3','4','5','6','7','8','9'],
        Char.isWhitespace x = false := by decide
    exact hdig d (toDigits_chars _ d hdmem)
  have hrev : (toFEN p).reverse = d :: (u ++
      (fenPlacement p ++ [' ', if p.sideToMove = false then 'w' else 'b', ' '] ++
        (if p.castling = [] then ['-'] else p.castling) ++ [' '] ++ fenEp p.enPassant ++
        [' '] ++ Nat.toDigits 10 p.halfmove ++ [' ']).reverse) := by
    rw [hlast, List.reverse_append, append_head _ _ d u hdu]
  exact jsTrim_eq_self _ c _ hhead hcws d _ hrev hdws

theorem splitOnP_cons_single (q : Char → Bool) (c : Char) (hc : ¬q c = true)
    (hsep : q ' ' = true) (as : List Char) :
    List.splitOnP q (c :: ' ' :: as) = [c] :: List.splitOnP q as :=
  List.splitOnP_first q [c] (by simpa using hc) ' ' hsep as

theorem toFEN_tokens (p : Board)
    (hcast : ∀ c ∈ p.castling, c = 'K' ∨ c = 'Q' ∨ c = 'k' ∨ c = 'q')
    (hEp : EpInv p) :
    (List.splitOnP Char.isWhitespace (jsTrim (toFEN p))).filter (· ≠ []) =
      fenPlacement p :: [if p.sideToMove = false then 'w' else 'b'] ::
        (if p.castling = [] then ['-'] else p.castling) :: fenEp p.enPassant ::
        (List.splitOnP Char.isWhitespace
          (Nat.toDigits 10 p.halfmove ++ ' ' :: Nat.toDigits 10 p.fullmove)).filter (· ≠ []) := by
  have hnws : ∀ x ∈ ['/','1','2','3','4','5','6','7','8',
      'P','p','N','n','B','b','R','r','Q','q','K','k'], Char.isWhitespace x = false := by
    decide
  have hplaceWS : ∀ x ∈ fenPlacement p, ¬Char.isWhitespace x = true := by
    intro x hx
    simp [hnws x (fenPlacement_chars p x hx)]
  have hsideWS : ¬Char.isWhitespace (if p.sideToMove = false then 'w' else 'b') = true := by
    split <;> decide
  have hcastWS : ∀ x ∈ (if p.castling = [] then ['-'] else p.castling),
      ¬Char.isWhitespace x = true := by
    intro x hx
    split at hx
    · simp at hx; subst hx; decide
    · rcases hcast x hx with rfl | rfl | rfl | rfl <;> decide
  have hepWS : ∀ x ∈ fenEp p.enPassant, ¬Char.isWhitespace x = true := by
    intro x hx
    simp [fenEp_chars p.enPassant hEp x hx]
  have hcastNE : (if p.castling = [] then ['-'] else p.castling) ≠ [] := by
    split <;> simp_all
  rw [toFEN_trim, toFEN_assoc]
  rw [List.splitOnP_first _ _ hplaceWS ' ' (by decide)]
  rw [splitOnP_cons_single _ _ hsideWS (by decide)]
  rw [List.splitOnP_first _ _ hcastWS ' ' (by decide)]
  rw [List.splitOnP_first _ _ hepWS ' ' (by decide)]
  rw [List.filter_cons_of_pos (by simpa using fenPlacement_ne_nil p)]
  rw [List.filter_cons_of_pos (by simp)]
  rw [List.filter_cons_of_pos (by simpa using hcastNE)]
  rw [List.filter_cons_of_pos (by simpa using fenEp_ne_nil p.enPassant)]

def importPlacement (p B : Board) : Board :=
  (List.range 8).foldl
    (fun acc r => loadRankChars r (encodeCells (rankCells p r) 0) 0 acc) (clearPieces B)

theorem splitOn_fenPlacement (p : Board) :
    List.splitOn '/' (fenPlacement p) =
      ((List.range 8).reverse).map (fun r => encodeCells (rankCells p r) 0) := by
  unfold fenPlacement
  refine List.splitOn_intercalate _ '/' ?_ (by simp)
  intro l hl
  simp only [List.mem_map] at hl
  obtain ⟨r, _, rfl⟩ := hl
  intro hmem
  exact absurd (encodedRank_chars p r '/' hmem) (by decide)

theorem getD_ranks (p : Board) (r : Nat) (hr : r < 8) :
    (((List.range 8).reverse).map (fun r => encodeCells (rankCells p r) 0)).getD (7 - r) [] =
      encodeCells (rankCells p r) 0 := by
  interval_cases r <;> rfl

theorem importPlacement_fold (p B : Board) :
    (List.range 8).foldl
      (fun acc r => loadRankChars r
        ((((List.range 8).reverse).map (fun r => encodeCells (rankCells p r) 0)).getD (7 - r) [])
        0 acc) (clearPieces B) = importPlacement p B := by
  unfold importPlacement
  refine List.foldl_ext _ _ _ ?_
  intro acc r hr
  rw [getD_ranks p r (List.mem_range.mp hr)]


theorem toDigits_noWS (n : Nat) : ∀ x ∈ Nat.toDigits 10 n, ¬Char.isWhitespace x = true := by
  intro x hx
  have hdig : ∀ x ∈ ['0','1','2','3','4','5','6','7','8','9'],
      Char.isWhitespace x = false := by decide
  simp [hdig x (toDigits_chars n x hx)]

theorem digits_tokens (a b : Nat) :
    (List.splitOnP Char.isWhitespace
      (Nat.toDigits 10 a ++ ' ' :: Nat.toDigits 10 b)).filter (· ≠ []) =
      [Nat.toDigits 10 a, Nat.toDigits 10 b] := by
  rw [List.splitOnP_first _ _ (toDigits_noWS a) ' ' (by decide)]
  rw [List.splitOnP_eq_single _ _ (toDigits_noWS b)]
  rw [List.filter_cons_of_pos (by simpa using toDigits_ne_nil a),
    List.filter_cons_of_pos (by simpa using toDigits_ne_nil b)]
  rfl

theorem toFEN_tokens6 (p : Board)
    (hcast : ∀ c ∈ p.castling, c = 'K' ∨ c = 'Q' ∨ c = 'k' ∨ c = 'q')
    (hEp : EpInv p) :
    (List.splitOnP Char.isWhitespace (jsTrim (toFEN p))).filter (· ≠ []) =
      [fenPlacement p, [if p.sideToMove = false then 'w' else 'b'],
        if p.castling = [] then ['-'] else p.castling, fenEp p.enPassant,
        Nat.toDigits 10 p.halfmove, Nat.toDigits 10 p.fullmove] := by
  rw [toFEN_tokens p hcast hEp, digits_tokens]

theorem loadFromFEN_case (B : Board) (fen pl sd ct ept hm fm : List Char)
    (hT : (List.splitOnP Char.isWhitespace (jsTrim fen)).filter (· ≠ []) =
      [pl, sd, ct, ept, hm, fm])
    (hpl : pl ≠ []) (h8 : (List.splitOn '/' pl).length = 8) :
    loadFromFEN B fen =
      { (List.range 8).foldl
          (fun acc r => loadRankChars r ((List.splitOn '/' pl).getD (7 - r) []) 0 acc)
          (clearPieces B) with
        sideToMove := sd = ['b'],
        castling := if ct ≠ [] ∧ ct ≠ ['-'] then ct else [],
        enPassant :=
          if ept ≠ [] ∧ ept ≠ ['-'] then
            (if 0 ≤ (((ept.getD 0 ' ').toNat : Int) - 97) ∧
                (((ept.getD 0 ' ').toNat : Int) - 97) < 8 ∧
                0 ≤ (if (ept.getD 1 ' ').isDigit
                      then (((ept.getD 1 ' ').toNat : Int) - 49) else -99) ∧
                (if (ept.getD 1 ' ').isDigit
                  then (((ept.getD 1 ' ').toNat : Int) - 49) else -99) < 8 then
              (if (ept.getD 1 ' ').isDigit
                then (((ept.getD 1 ' ').toNat : Int) - 49) else -99) * 8 +
                (((ept.getD 0 ' ').toNat : Int) - 97)
            else -1)
          else -1,
        halfmove := (jsParseNat hm).getD 0,
        fullmove :=
          match jsParseNat fm with
          | none => 1
          | some 0 => 1
          | some v => v } := by
  simp only [loadFromFEN, hT]
  simp only [List.getD_cons_zero, List.getD_cons_succ]
  rw [if_neg hpl, h8]
  rw [if_neg (by omega : ¬(8 : Nat) ≠ 8)]
  split_ifs <;> rfl

theorem fenEp_import_val (ep : Int) (h : ep = -1 ∨ (0 ≤ ep ∧ ep < 64)) :
    (if fenEp ep ≠ [] ∧ fenEp ep ≠ ['-'] then
      (if 0 ≤ ((((fenEp ep).getD 0 ' ').toNat : Int) - 97) ∧
          ((((fenEp ep).getD 0 ' ').toNat : Int) - 97) < 8 ∧
          0 ≤ (if ((fenEp ep).getD 1 ' ').isDigit
                then ((((fenEp ep).getD 1 ' ').toNat : Int) - 49) else -99) ∧
          (if ((fenEp ep).getD 1 ' ').isDigit
            then ((((fenEp ep).getD 1 ' ').toNat : Int) - 49) else -99) < 8 then
        (if ((fenEp ep).getD 1 ' ').isDigit
          then ((((fenEp ep).getD 1 ' ').toNat : Int) - 49) else -99) * 8 +
          ((((fenEp ep).getD 0 ' ').toNat : Int) - 97)
      else -1)
    else -1) = ep := by
  rcases h with rfl | ⟨h0, h1⟩
  · decide
  · interval_cases ep <;> decide

theorem loadFromFEN_toFEN_fields (B p : Board)
    (hcast : ∀ c ∈ p.castling, c = 'K' ∨ c = 'Q' ∨ c = 'k' ∨ c = 'q') (hEp : EpInv p) :
    (loadFromFEN B (toFEN p)).pawns = (importPlacement p B).pawns ∧
    (loadFromFEN B (toFEN p)).knights = (importPlacement p B).knights ∧
    (loadFromFEN B (toFEN p)).bishops = (importPlacement p B).bishops ∧
    (loadFromFEN B (toFEN p)).rooks = (importPlacement p B).rooks ∧
    (loadFromFEN B (toFEN p)).queens = (importPlacement p B).queens ∧
    (loadFromFEN B (toFEN p)).kings = (importPlacement p B).kings ∧
    (loadFromFEN B (toFEN p)).sideToMove = p.sideToMove ∧
    (loadFromFEN B (toFEN p)).castling = p.castling ∧
    (loadFromFEN B (toFEN p)).enPassant = p.enPassant := by
  rw [loadFromFEN_case B (toFEN p) (fenPlacement p)
    [if p.sideToMove = false then 'w' else 'b']
    (if p.castling = [] then ['-'] else p.castling) (fenEp p.enPassant)
    (Nat.toDigits 10 p.halfmove) (Nat.toDigits 10 p.fullmove)
    (toFEN_tokens6 p hcast hEp) (fenPlacement_ne_nil p)
    (by rw [splitOn_fenPlacement]; simp)]
  simp only [splitOn_fenPlacement, importPlacement_fold]
  refine ⟨trivial, trivial, trivial, trivial, trivial, trivial, ?_, ?_, ?_⟩
  · show (decide (([if p.sideToMove = false then 'w' else 'b'] : List Char) = ['b'])) =
      p.sideToMove
    cases p.sideToMove <;> rfl
  · show (if (if p.castling = [] then ['-'] else p.castling) ≠ [] ∧
        (if p.castling = [] then ['-'] else p.castling) ≠ ['-'] then
        (if p.castling = [] then ['-'] else p.castling) else []) = p.castling
    by_cases h0 : p.castling = []
    · rw [if_pos h0, if_neg (by simp)]
      exact h0.symm
    · rw [if_neg h0, if_pos]
      refine ⟨h0, ?_⟩
      intro hd
      rcases hcast '-' (by rw [hd]; simp) with h | h | h <;> simp at h
  · exact fenEp_import_val p.enPassant hEp

theorem digitChar_rank (k : Nat) (h1 : 1 ≤ k) (h8 : k ≤ 8) :
    ('1' ≤ digitChar k ∧ digitChar k ≤ '8') ∧ (digitChar k).toNat - 48 = k := by
  interval_cases k <;> exact ⟨by decide, by decide⟩

theorem loadRankChars_encodeCells (r : Nat) :
    ∀ (cells : List (Option Char)) (e f : Nat) (B : Board),
      f + e + cells.length ≤ 8 →
      (∀ c, some c ∈ cells → ¬('1' ≤ c ∧ c ≤ '8')) →
      loadRankChars r (encodeCells cells e) f B =
        placeList (assignments r (f + e) cells) B := by
  intro cells
  induction cells with
  | nil =>
    intro e f B he _
    cases e with
    | zero => rfl
    | succ e =>
      simp only [encodeCells, loadRankChars]
      rw [if_neg (by simp at he; omega : ¬8 ≤ f),
        if_pos (digitChar_rank (e + 1) (by omega) (by simp at he; omega)).1]
      rfl
  | cons oc cs ih =>
    intro e f B he hnd
    cases oc with
    | none =>
      simp only [encodeCells, assignments]
      exact ih (e + 1) f B (by simp at he ⊢; omega) (fun c h => hnd c (by simp [h]))
    | some c =>
      have hcnd : ¬('1' ≤ c ∧ c ≤ '8') := hnd c (by simp)
      cases e with
      | zero =>
        simp only [encodeCells, loadRankChars, assignments, placeList, List.foldl_cons]
        rw [if_neg (by simp at he; omega : ¬8 ≤ f), if_neg hcnd]
        exact ih 0 (f + 1) _ (by simp at he ⊢; omega) (fun d h => hnd d (by simp [h]))
      | succ e =>
        simp only [encodeCells, loadRankChars, assignments, placeList, List.foldl_cons]
        rw [if_neg (by simp at he; omega : ¬8 ≤ f),
          if_pos (digitChar_rank (e + 1) (by omega) (by simp at he; omega)).1,
          (digitChar_rank (e + 1) (by omega) (by simp at he; omega)).2]
        rw [if_neg (by simp at he; omega : ¬8 ≤ f + (e + 1)), if_neg hcnd]
        have := ih 0 (f + (e + 1) + 1) (placeChar B (r * 8 + (f + (e + 1))) c)
          (by simp at he ⊢; omega) (fun d h => hnd d (by simp [h]))
        rw [this]
        rfl


theorem sel_updSel_other (p : Nat × Nat) (s s2 : Side) (v : Nat) (h : s2 ≠ s) :
    sel (updSel p s v) s2 = sel p s2 := by
  cases s <;> cases s2 <;> simp_all [sel, updSel]

theorem setGet_placeChar (B : Board) (s : Nat) (ch : Char) (i : Nat) (hi : i < 12) :
    setGet (placeChar B s ch) i =
      if ch = pieceLetterOf i then setGet B i ||| bit s else setGet B i := by
  by_cases h1 : ch = 'P'
  · subst h1
    interval_cases i <;> rfl
  by_cases h2 : ch = 'p'
  · subst h2
    interval_cases i <;> rfl
  by_cases h3 : ch = 'N'
  · subst h3
    interval_cases i <;> rfl
  by_cases h4 : ch = 'n'
  · subst h4
    interval_cases i <;> rfl
  by_cases h5 : ch = 'B'
  · subst h5
    interval_cases i <;> rfl
  by_cases h6 : ch = 'b'
  · subst h6
    interval_cases i <;> rfl
  by_cases h7 : ch = 'R'
  · subst h7
    interval_cases i <;> rfl
  by_cases h8 : ch = 'r'
  · subst h8
    interval_cases i <;> rfl
  by_cases h9 : ch = 'Q'
  · subst h9
    interval_cases i <;> rfl
  by_cases h10 : ch = 'q'
  · subst h10
    interval_cases i <;> rfl
  by_cases h11 : ch = 'K'
  · subst h11
    interval_cases i <;> rfl
  by_cases h12 : ch = 'k'
  · subst h12
    interval_cases i <;> rfl
  have hid : placeChar B s ch = B := by
    unfold placeChar
    rw [if_neg h1, if_neg h2, if_neg h3, if_neg h4, if_neg h5, if_neg h6, if_neg h7, if_neg h8, if_neg h9, if_neg h10, if_neg h11, if_neg h12]
  rw [hid]
  interval_cases i <;> simp only [pieceLetterOf] <;>
    first | (rw [if_neg h1]) | (rw [if_neg h2]) | (rw [if_neg h3]) | (rw [if_neg h4]) | (rw [if_neg h5]) | (rw [if_neg h6]) | (rw [if_neg h7]) | (rw [if_neg h8]) | (rw [if_neg h9]) | (rw [if_neg h10]) | (rw [if_neg h11]) | (rw [if_neg h12])

theorem testBit_bit (s q : Nat) : (bit s).testBit q = decide (s = q) := by
  by_cases h : s = q
  · subst h
    simp [testBit_bit_self]
  · rw [bit_eq_two_pow, Nat.testBit_two_pow_of_ne h]
    simp [h]

theorem testBit_placeList : ∀ (A : List (Nat × Char)) (B : Board) (i : Nat), i < 12 →
    ∀ sq : Nat, ((setGet (placeList A B) i).testBit sq = true ↔
      ((setGet B i).testBit sq = true ∨ (sq, pieceLetterOf i) ∈ A)) := by
  intro A
  induction A with
  | nil => simp [placeList]
  | cons a A ih =>
    intro B i hi sq
    obtain ⟨s, ch⟩ := a
    have hstep : placeList ((s, ch) :: A) B = placeList A (placeChar B s ch) := rfl
    rw [hstep, ih (placeChar B s ch) i hi sq, setGet_placeChar B s ch i hi]
    by_cases hch : ch = pieceLetterOf i
    · rw [if_pos hch]
      simp only [Nat.testBit_or, List.mem_cons, Prod.mk.injEq, Bool.or_eq_true,
        testBit_bit, decide_eq_true_eq]
      constructor
      · rintro ((h | rfl) | h)
        · exact Or.inl h
        · exact Or.inr (Or.inl ⟨rfl, hch.symm⟩)
        · exact Or.inr (Or.inr h)
      · rintro (h | (⟨rfl, _⟩ | h))
        · exact Or.inl (Or.inl h)
        · exact Or.inl (Or.inr rfl)
        · exact Or.inr h
    · rw [if_neg hch]
      have hne : ¬((sq, pieceLetterOf i) = (s, ch)) := by
        intro hh
        exact hch (congrArg Prod.snd hh).symm
      simp only [List.mem_cons, hne, false_or]

theorem mem_assignments (r : Nat) (q : Nat) (ch : Char) :
    ∀ (cells : List (Option Char)) (s : Nat),
      ((q, ch) ∈ assignments r s cells ↔
        ∃ j, j < cells.length ∧ cells.getD j none = some ch ∧ q = r * 8 + s + j) := by
  intro cells
  induction cells with
  | nil => simp [assignments]
  | cons oc cs ih =>
    intro s
    cases oc with
    | none =>
      rw [show assignments r s (none :: cs) = assignments r (s + 1) cs from rfl, ih (s + 1)]
      constructor
      · rintro ⟨j, hj, hget, hq⟩
        exact ⟨j + 1, by simpa using hj, by simpa using hget, by omega⟩
      · rintro ⟨j, hj, hget, hq⟩
        cases j with
        | zero => simp at hget
        | succ j =>
          exact ⟨j, by simpa using hj, by simpa using hget, by omega⟩
    | some c =>
      rw [show assignments r s (some c :: cs) =
        (r * 8 + s, c) :: assignments r (s + 1) cs from rfl]
      rw [List.mem_cons, ih (s + 1)]
      constructor
      · rintro (hh | ⟨j, hj, hget, hq⟩)
        · injection hh with h1 h2
          exact ⟨0, by simp, by simp [h2], by omega⟩
        · exact ⟨j + 1, by simpa using hj, by simpa using hget, by omega⟩
      · rintro ⟨j, hj, hget, hq⟩
        cases j with
        | zero =>
          simp only [List.getD_cons_zero] at hget
          injection hget with h2
          left
          rw [Prod.mk.injEq]
          exact ⟨by omega, h2.symm⟩
        | succ j =>
          exact Or.inr ⟨j, by simpa using hj, by simpa using hget, by omega⟩

theorem rankCells_getD (b : Board) (r j : Nat) (hj : j < 8) :
    (rankCells b r).getD j none = pieceCharAt b (r * 8 + j) := by
  unfold rankCells
  rw [List.getD_eq_getElem?_getD, List.getElem?_map]
  simp [List.getElem?_range hj]

theorem setGet_clearPieces (B : Board) (i : Nat) (hi : i < 12) :
    setGet (clearPieces B) i = 0 := by
  interval_cases i <;> rfl

theorem mem_assignments_rank (p : Board) (r : Nat) (q : Nat) (ch : Char) :
    (q, ch) ∈ assignments r 0 (rankCells p r) ↔
      ∃ j, j < 8 ∧ pieceCharAt p (r * 8 + j) = some ch ∧ q = r * 8 + j := by
  rw [mem_assignments]
  constructor
  · rintro ⟨j, hj, hget, hq⟩
    rw [rankCells_length] at hj
    rw [rankCells_getD p r j hj] at hget
    exact ⟨j, hj, hget, by omega⟩
  · rintro ⟨j, hj, hget, hq⟩
    refine ⟨j, by rw [rankCells_length]; exact hj, ?_, by omega⟩
    rw [rankCells_getD p r j hj]
    exact hget

theorem testBit_rankFold (p : Board) : ∀ (rs : List Nat) (B0 : Board) (i : Nat), i < 12 →
    ∀ sq : Nat,
      ((setGet (rs.foldl
          (fun acc r => placeList (assignments r 0 (rankCells p r)) acc) B0) i).testBit sq
        = true ↔
       ((setGet B0 i).testBit sq = true ∨
         ∃ r ∈ rs, (sq, pieceLetterOf i) ∈ assignments r 0 (rankCells p r))) := by
  intro rs
  induction rs with
  | nil => simp
  | cons r rs ih =>
    intro B0 i hi sq
    simp only [List.foldl_cons]
    rw [ih (placeList (assignments r 0 (rankCells p r)) B0) i hi sq,
      testBit_placeList (assignments r 0 (rankCells p r)) B0 i hi sq]
    constructor
    · rintro ((h | h) | ⟨r2, hr2, h⟩)
      · exact Or.inl h
      · exact Or.inr ⟨r, by simp, h⟩
      · exact Or.inr ⟨r2, by simp [hr2], h⟩
    · rintro (h | ⟨r2, hr2, h⟩)
      · exact Or.inl (Or.inl h)
      · rcases List.mem_cons.mp hr2 with rfl | hr2'
        · exact Or.inl (Or.inr h)
        · exact Or.inr ⟨r2, hr2', h⟩

theorem importPlacement_as_placeList (p B : Board) :
    importPlacement p B = (List.range 8).foldl
      (fun acc r => placeList (assignments r 0 (rankCells p r)) acc) (clearPieces B) := by
  unfold importPlacement
  refine List.foldl_ext _ _ _ ?_
  intro acc r _
  refine loadRankChars_encodeCells r (rankCells p r) 0 0 acc (by simp [rankCells_length]) ?_
  intro c hc
  simp only [rankCells, List.mem_map] at hc
  obtain ⟨f, _, hf⟩ := hc
  have hmem := pieceCharAt_mem p (r * 8 + f) c hf
  have hnd : ∀ x ∈ fenPieceChars, ¬('1' ≤ x ∧ x ≤ '8') := by decide
  exact hnd c hmem

theorem testBit_importPlacement (p B : Board) (i : Nat) (hi : i < 12) (sq : Nat)
    (hsq : sq < 64) :
    ((setGet (importPlacement p B) i).testBit sq = true) ↔
      pieceCharAt p sq = some (pieceLetterOf i) := by
  rw [importPlacement_as_placeList, testBit_rankFold p (List.range 8) (clearPieces B) i hi sq,
    setGet_clearPieces B i hi]
  simp only [Nat.zero_testBit, Bool.false_eq_true, false_or]
  constructor
  · rintro ⟨r, hr, hmem⟩
    rw [mem_assignments_rank] at hmem
    obtain ⟨j, hj, hpc, rfl⟩ := hmem
    exact hpc
  · intro h
    refine ⟨sq / 8, List.mem_range.mpr (by omega), ?_⟩
    rw [mem_assignments_rank]
    refine ⟨sq % 8, by omega, ?_, by omega⟩
    rw [show sq / 8 * 8 + sq % 8 = sq by omega]
    exact h

theorem and_bit_ne_iff (x sq : Nat) : (x &&& bit sq ≠ 0) ↔ x.testBit sq = true := by
  rw [bit_eq_two_pow, Nat.and_two_pow]
  cases h : x.testBit sq
  · simp
  · simp [Nat.pow_eq_zero]

theorem pieceCharAt_of_conds (x : Board) (sq : Nat) (O : Option Char)
    (h : ∀ i, i < 12 → ((setGet x i &&& bit sq ≠ 0) ↔ O = some (pieceLetterOf i)))
    (hO : O = none ∨ ∃ i, i < 12 ∧ O = some (pieceLetterOf i)) :
    pieceCharAt x sq = O := by
  show (if setGet x 0 &&& bit sq ≠ 0 then some 'P'
      else if setGet x 1 &&& bit sq ≠ 0 then some 'p'
      else if setGet x 2 &&& bit sq ≠ 0 then some 'N'
      else if setGet x 3 &&& bit sq ≠ 0 then some 'n'
      else if setGet x 4 &&& bit sq ≠ 0 then some 'B'
      else if setGet x 5 &&& bit sq ≠ 0 then some 'b'
      else if setGet x 6 &&& bit sq ≠ 0 then some 'R'
      else if setGet x 7 &&& bit sq ≠ 0 then some 'r'
      else if setGet x 8 &&& bit sq ≠ 0 then some 'Q'
      else if setGet x 9 &&& bit sq ≠ 0 then some 'q'
      else if setGet x 10 &&& bit sq ≠ 0 then some 'K'
      else if setGet x 11 &&& bit sq ≠ 0 then some 'k'
      else none) = O
  rcases hO with rfl | ⟨i0, hi0, rfl⟩
  · rw [if_neg (fun hc => by simpa using (h 0 (by omega)).mp hc),
      if_neg (fun hc => by simpa using (h 1 (by omega)).mp hc),
      if_neg (fun hc => by simpa using (h 2 (by omega)).mp hc),
      if_neg (fun hc => by simpa using (h 3 (by omega)).mp hc),
      if_neg (fun hc => by simpa using (h 4 (by omega)).mp hc),
      if_neg (fun hc => by simpa using (h 5 (by omega)).mp hc),
      if_neg (fun hc => by simpa using (h 6 (by omega)).mp hc),
      if_neg (fun hc => by simpa using (h 7 (by omega)).mp hc),
      if_neg (fun hc => by simpa using (h 8 (by omega)).mp hc),
      if_neg (fun hc => by simpa using (h 9 (by omega)).mp hc),
      if_neg (fun hc => by simpa using (h 10 (by omega)).mp hc),
      if_neg (fun hc => by simpa using (h 11 (by omega)).mp hc)]
  · interval_cases i0
    · rw [if_pos ((h 0 (by omega)).mpr rfl)]
      rfl
    · rw [if_neg (fun hc => absurd ((h 0 (by omega)).mp hc) (by decide)),
        if_pos ((h 1 (by omega)).mpr rfl)]
      rfl
    · rw [if_neg (fun hc => absurd ((h 0 (by omega)).mp hc) (by decide)),
        if_neg (fun hc => absurd ((h 1 (by omega)).mp hc) (by decide)),
        if_pos ((h 2 (by omega)).mpr rfl)]
      rfl
    · rw [if_neg (fun hc => absurd ((h 0 (by omega)).mp hc) (by decide)),
        if_neg (fun hc => absurd ((h 1 (by omega)).mp hc) (by decide)),
        if_neg (fun hc => absurd ((h 2 (by omega)).mp hc) (by decide)),
        if_pos ((h 3 (by omega)).mpr rfl)]
      rfl
    · rw [if_neg (fun hc => absurd ((h 0 (by omega)).mp hc) (by decide)),
        if_neg (fun hc => absurd ((h 1 (by omega)).mp hc) (by decide)),
        if_neg (fun hc => absurd ((h 2 (by omega)).mp hc) (by decide)),
        if_neg (fun hc => absurd ((h 3 (by omega)).mp hc) (by decide)),
        if_pos ((h 4 (by omega)).mpr rfl)]
      rfl
    · rw [if_neg (fun hc => absurd ((h 0 (by omega)).mp hc) (by decide)),
        if_neg (fun hc => absurd ((h 1 (by omega)).mp hc) (by decide)),
        if_neg (fun hc => absurd ((h 2 (by omega)).mp hc) (by decide)),
        if_neg (fun hc => absurd ((h 3 (by omega)).mp hc) (by decide)),
        if_neg (fun hc => absurd ((h 4 (by omega)).mp hc) (by decide)),
        if_pos ((h 5 (by omega)).mpr rfl)]
      rfl
    · rw [if_neg (fun hc => absurd ((h 0 (by omega)).mp hc) (by decide)),
        if_neg (fun hc => absurd ((h 1 (by omega)).mp hc) (by decide)),
        if_neg (fun hc => absurd ((h 2 (by omega)).mp hc) (by decide)),
        if_neg (fun hc => absurd ((h 3 (by omega)).mp hc) (by decide)),
        if_neg (fun hc => absurd ((h 4 (by omega)).mp hc) (by decide)),
        if_neg (fun hc => absurd ((h 5 (by omega)).mp hc) (by decide)),
        if_pos ((h 6 (by omega)).mpr rfl)]
      rfl
    · rw [if_neg (fun hc => absurd ((h 0 (by omega)).mp hc) (by decide)),
        if_neg (fun hc => absurd ((h 1 (by omega)).mp hc) (by decide)),
        if_neg (fun hc => absurd ((h 2 (by omega)).mp hc) (by decide)),
        if_neg (fun hc => absurd ((h 3 (by omega)).mp hc) (by decide)),
        if_neg (fun hc => absurd ((h 4 (by omega)).mp hc) (by decide)),
        if_neg (fun hc => absurd ((h 5 (by omega)).mp hc) (by decide)),
        if_neg (fun hc => absurd ((h 6 (by omega)).mp hc) (by decide)),
        if_pos ((h 7 (by omega)).mpr rfl)]
      rfl
    · rw [if_neg (fun hc => absurd ((h 0 (by omega)).mp hc) (by decide)),
        if_neg (fun hc => absurd ((h 1 (by omega)).mp hc) (by decide)),
        if_neg (fun hc => absurd ((h 2 (by omega)).mp hc) (by decide)),
        if_neg (fun hc => absurd ((h 3 (by omega)).mp hc) (by decide)),
        if_neg (fun hc => absurd ((h 4 (by omega)).mp hc) (by decide)),
        if_neg (fun hc => absurd ((h 5 (by omega)).mp hc) (by decide)),
        if_neg (fun hc => absurd ((h 6 (by omega)).mp hc) (by decide)),
        if_neg (fun hc => absurd ((h 7 (by omega)).mp hc) (by decide)),
        if_pos ((h 8 (by omega)).mpr rfl)]
      rfl
    · rw [if_neg (fun hc => absurd ((h 0 (by omega)).mp hc) (by decide)),
        if_neg (fun hc => absurd ((h 1 (by omega)).mp hc) (by decide)),
        if_neg (fun hc => absurd ((h 2 (by omega)).mp hc) (by decide)),
        if_neg (fun hc => absurd ((h 3 (by omega)).mp hc) (by decide)),
        if_neg (fun hc => absurd ((h 4 (by omega)).mp hc) (by decide)),
        if_neg (fun hc => absurd ((h 5 (by omega)).mp hc) (by decide)),
        if_neg (fun hc => absurd ((h 6 (by omega)).mp hc) (by decide)),
        if_neg (fun hc => absurd ((h 7 (by omega)).mp hc) (by decide)),
        if_neg (fun hc => absurd ((h 8 (by omega)).mp hc) (by decide)),
        if_pos ((h 9 (by omega)).mpr rfl)]
      rfl
    · rw [if_neg (fun hc => absurd ((h 0 (by omega)).mp hc) (by decide)),
        if_neg (fun hc => absurd ((h 1 (by omega)).mp hc) (by decide)),
        if_neg (fun hc => absurd ((h 2 (by omega)).mp hc) (by decide)),
        if_neg (fun hc => absurd ((h 3 (by omega)).mp hc) (by decide)),
        if_neg (fun hc => absurd ((h 4 (by omega)).mp hc) (by decide)),
        if_neg (fun hc => absurd ((h 5 (by omega)).mp hc) (by decide)),
        if_neg (fun hc => absurd ((h 6 (by omega)).mp hc) (by decide)),
        if_neg (fun hc => absurd ((h 7 (by omega)).mp hc) (by decide)),
        if_neg (fun hc => absurd ((h 8 (by omega)).mp hc) (by decide)),
        if_neg (fun hc => absurd ((h 9 (by omega)).mp hc) (by decide)),
        if_pos ((h 10 (by omega)).mpr rfl)]
      rfl
    · rw [if_neg (fun hc => absurd ((h 0 (by omega)).mp hc) (by decide)),
        if_neg (fun hc => absurd ((h 1 (by omega)).mp hc) (by decide)),
        if_neg (fun hc => absurd ((h 2 (by omega)).mp hc) (by decide)),
        if_neg (fun hc => absurd ((h 3 (by omega)).mp hc) (by decide)),
        if_neg (fun hc => absurd ((h 4 (by omega)).mp hc) (by decide)),
        if_neg (fun hc => absurd ((h 5 (by omega)).mp hc) (by decide)),
        if_neg (fun hc => absurd ((h 6 (by omega)).mp hc) (by decide)),
        if_neg (fun hc => absurd ((h 7 (by omega)).mp hc) (by decide)),
        if_neg (fun hc => absurd ((h 8 (by omega)).mp hc) (by decide)),
        if_neg (fun hc => absurd ((h 9 (by omega)).mp hc) (by decide)),
        if_neg (fun hc => absurd ((h 10 (by omega)).mp hc) (by decide)),
        if_pos ((h 11 (by omega)).mpr rfl)]
      rfl

theorem fenPieceChars_index : ∀ ch ∈ fenPieceChars, ∃ i, i < 12 ∧ ch = pieceLetterOf i := by
  intro ch h
  fin_cases h
  · exact ⟨0, by omega, rfl⟩
  · exact ⟨1, by omega, rfl⟩
  · exact ⟨2, by omega, rfl⟩
  · exact ⟨3, by omega, rfl⟩
  · exact ⟨4, by omega, rfl⟩
  · exact ⟨5, by omega, rfl⟩
  · exact ⟨6, by omega, rfl⟩
  · exact ⟨7, by omega, rfl⟩
  · exact ⟨8, by omega, rfl⟩
  · exact ⟨9, by omega, rfl⟩
  · exact ⟨10, by omega, rfl⟩
  · exact ⟨11, by omega, rfl⟩

theorem pieceCharAt_importPlacement (p B : Board) (sq : Nat) (hsq : sq < 64) :
    pieceCharAt (importPlacement p B) sq = pieceCharAt p sq := by
  refine pieceCharAt_of_conds _ _ _ (fun i hi => ?_) ?_
  · rw [and_bit_ne_iff]
    exact testBit_importPlacement p B i hi sq hsq
  · cases hO : pieceCharAt p sq with
    | none => exact Or.inl rfl
    | some ch =>
      obtain ⟨i, hi, rfl⟩ := fenPieceChars_index ch (pieceCharAt_mem p sq ch hO)
      exact Or.inr ⟨i, hi, rfl⟩

theorem zobPieceContrib_eq (b : Board) (sq : Nat) :
    zobPieceContrib b sq = zobOfChar sq (pieceCharAt b sq) := by
  unfold pieceCharAt
  simp only [apply_ite (zobOfChar sq)]
  rfl

theorem getZobristKey_congr (b1 b2 : Board)
    (hpieces : ∀ sq, sq < 64 → zobPieceContrib b1 sq = zobPieceContrib b2 sq)
    (hside : b1.sideToMove = b2.sideToMove) (hcast : b1.castling = b2.castling)
    (hep : b1.enPassant = b2.enPassant) : getZobristKey b1 = getZobristKey b2 := by
  unfold getZobristKey
  have hfold : (List.range 64).foldl (fun k sq => k ^^^ zobPieceContrib b1 sq) 0 =
      (List.range 64).foldl (fun k sq => k ^^^ zobPieceContrib b2 sq) 0 :=
    List.foldl_ext _ _ _ (fun k sq h => by rw [hpieces sq (List.mem_range.mp h)])
  rw [hfold, hside, hcast, hep]

/-- Claim C5: for every position reached from the initial position by a
sequence of applied move descriptors (with on-board squares), importing
the FEN string exported from it into a fresh engine yields a position
whose 64-bit Zobrist hash equals the hash of the original. -/
theorem c5_fen_roundtrip_hash (p : Board) (hR : Reachable p) :
    getZobristKey (loadFromFEN initialBoard (toFEN p)) = getZobristKey p := by
  obtain ⟨hEp, hCast⟩ := reachable_inv p hR
  obtain ⟨h1, h2, h3, h4, h5, h6, h7, h8, h9⟩ :=
    loadFromFEN_toFEN_fields initialBoard p hCast.1 hEp
  refine getZobristKey_congr _ _ ?_ h7 h8 h9
  intro sq hsq
  rw [zobPieceContrib_eq, zobPieceContrib_eq]
  have hpc : pieceCharAt (loadFromFEN initialBoard (toFEN p)) sq =
      pieceCharAt (importPlacement p initialBoard) sq := by
    unfold pieceCharAt
    rw [h1, h2, h3, h4, h5, h6]
  rw [hpc, pieceCharAt_importPlacement p initialBoard sq hsq]

/-- Witness for C5 at the initial position itself (reached by the empty
replay): export, re-import, and the keys agree. -/
theorem c5_fen_roundtrip_hash_witness :
    getZobristKey (loadFromFEN initialBoard (toFEN initialBoard)) =
      getZobristKey initialBoard :=
  c5_fen_roundtrip_hash initialBoard ⟨[], fun m hm => absurd hm (List.not_mem_nil m), rfl⟩

/-- Claim C8: the two engines do NOT agree bit-for-bit for every SAN
input: on the single-move replay "e4 " (trailing space) from the
initial position the JS engine trims the string, resolves e2-e4 and
applies it, while the C parser reads the untrimmed final two characters
as the destination square and fails, leaving its board unchanged; the
exported FEN strings then differ. -/
theorem c8_engines_disagree_on_trailing_space :
    resolveSAN initialBoard ['e', '4', ' '] =
      some ⟨12, 28, none, none, false⟩ ∧
    resolve_san initialBoard ['e', '4', ' '] = none ∧
    toFEN (makeMoveSAN initialBoard ['e', '4', ' ']) ≠
      board_to_fen (board_make_move_san initialBoard ['e', '4', ' ']) := by
  decide
